import Mathlib

/-!
Verification of `CPP/data_structures/advanced_segment_tree.cpp`.

The file contains two structures:

* `AdvancedSegmentTree<T>` — a sum segment tree with lazy propagation
  (`build`, `updateLazy`, `updateRange`, `queryRange`, `updatePoint`,
  `queryMin`), instantiated at `T = int` by every caller in the file.
* `BinaryIndexedTree<T>` — a Fenwick tree (`update`, `query`, `rangeQuery`).

We embed both shallowly.  The element type is modelled as `Int` (the C++
code performs no overflow checking and every caller instantiates `T = int`;
the claims are about exact arithmetic, so unbounded integers are the
faithful denotation of the `+`/`*` the code performs, overflow aside).
The `tree`/`lazy` vectors are modelled as total maps `Nat → Int`:
the C++ vectors are sized `4n` and, for `n ≥ 1`, the recursion only ever
touches indices below `4n`.  Recursive private members are written with a
structural fuel argument; the public entry points pass fuel `n`, which is
strictly larger than the recursion measure `end - start` of every call
reached from `(1, 0, n-1)`, so for `n ≥ 1` the fuel never runs out and the
model computes exactly what the C++ recursion computes.
-/

namespace SegTree

/-- Pointwise update of a total map, modelling `v[i] = x` on a vector. -/
def upd (f : Nat → Int) (i : Nat) (v : Int) : Nat → Int :=
  fun j => if j = i then v else f j

/-- The state of an `AdvancedSegmentTree<int>`: the `tree` and `lazy`
vectors and the element count `n`. -/
structure AST where
  tree : Nat → Int
  lazy : Nat → Int
  n : Nat

/-- Member `updateLazy(node, start, end)`:

    if (lazy[node] != 0) {
        tree[node] += lazy[node] * (end - start + 1);
        if (start != end) {
            lazy[2*node] += lazy[node];
            lazy[2*node+1] += lazy[node];
        }
        lazy[node] = 0;
    }
-/
def updateLazy (s : AST) (node start e : Nat) : AST :=
  if s.lazy node ≠ 0 then
    let s1 : AST :=
      { s with tree := upd s.tree node (s.tree node + s.lazy node * ((e : Int) - (start : Int) + 1)) }
    let s2 : AST :=
      if start ≠ e then
        let lz := upd s1.lazy (2 * node) (s1.lazy (2 * node) + s1.lazy node)
        let lz := upd lz (2 * node + 1) (lz (2 * node + 1) + s1.lazy node)
        { s1 with lazy := lz }
      else s1
    { s2 with lazy := upd s2.lazy node 0 }
  else s

/-- Private `updateRange(node, start, end, l, r, val)`, with structural fuel.

    updateLazy(node, start, end);
    if (start > r || end < l) return;
    if (start >= l && end <= r) { lazy[node] += val; updateLazy(node, start, end); return; }
    int mid = (start + end) / 2;
    updateRange(2*node, start, mid, l, r, val);
    updateRange(2*node+1, mid+1, end, l, r, val);
    updateLazy(2*node, start, mid);
    updateLazy(2*node+1, mid+1, end);
    tree[node] = tree[2*node] + tree[2*node+1];
-/
def updateRangeAux : Nat → AST → Nat → Nat → Nat → Int → Int → Int → AST
  | 0, s, _, _, _, _, _, _ => s
  | fuel + 1, s, node, start, e, l, r, val =>
    let s := updateLazy s node start e
    if (start : Int) > r ∨ (e : Int) < l then s
    else if (start : Int) ≥ l ∧ (e : Int) ≤ r then
      let s' : AST := { s with lazy := upd s.lazy node (s.lazy node + val) }
      updateLazy s' node start e
    else
      let mid := (start + e) / 2
      let s := updateRangeAux fuel s (2 * node) start mid l r val
      let s := updateRangeAux fuel s (2 * node + 1) (mid + 1) e l r val
      let s := updateLazy s (2 * node) start mid
      let s := updateLazy s (2 * node + 1) (mid + 1) e
      { s with tree := upd s.tree node (s.tree (2 * node) + s.tree (2 * node + 1)) }

/-- Private `queryRange(node, start, end, l, r)` (range sum), returning the
value and the mutated state.

    if (start > r || end < l) return 0;
    updateLazy(node, start, end);
    if (start >= l && end <= r) return tree[node];
    int mid = (start + end) / 2;
    T p1 = queryRange(2*node, start, mid, l, r);
    T p2 = queryRange(2*node+1, mid+1, end, l, r);
    return p1 + p2;
-/
def queryRangeAux : Nat → AST → Nat → Nat → Nat → Int → Int → Int × AST
  | 0, s, _, _, _, _, _ => (0, s)
  | fuel + 1, s, node, start, e, l, r =>
    if (start : Int) > r ∨ (e : Int) < l then (0, s)
    else
      let s := updateLazy s node start e
      if (start : Int) ≥ l ∧ (e : Int) ≤ r then (s.tree node, s)
      else
        let mid := (start + e) / 2
        let p1 := queryRangeAux fuel s (2 * node) start mid l r
        let p2 := queryRangeAux fuel p1.2 (2 * node + 1) (mid + 1) e l r
        (p1.1 + p2.1, p2.2)

/-- Private `updatePoint(node, start, end, idx, val)`.

    updateLazy(node, start, end);
    if (start == end) { tree[node] = val; return; }
    int mid = (start + end) / 2;
    if (idx <= mid) updatePoint(2*node, start, mid, idx, val);
    else updatePoint(2*node+1, mid+1, end, idx, val);
    updateLazy(2*node, start, mid);
    updateLazy(2*node+1, mid+1, end);
    tree[node] = tree[2*node] + tree[2*node+1];
-/
def updatePointAux : Nat → AST → Nat → Nat → Nat → Int → Int → AST
  | 0, s, _, _, _, _, _ => s
  | fuel + 1, s, node, start, e, idx, val =>
    let s := updateLazy s node start e
    if start = e then { s with tree := upd s.tree node val }
    else
      let mid := (start + e) / 2
      let s :=
        if idx ≤ (mid : Int) then updatePointAux fuel s (2 * node) start mid idx val
        else updatePointAux fuel s (2 * node + 1) (mid + 1) e idx val
      let s := updateLazy s (2 * node) start mid
      let s := updateLazy s (2 * node + 1) (mid + 1) e
      { s with tree := upd s.tree node (s.tree (2 * node) + s.tree (2 * node + 1)) }

/-- The sentinel `std::numeric_limits<int>::max()`, the identity returned by `queryMin`
for disjoint ranges (all callers instantiate `T = int`). -/
def intMax : Int := 2147483647

/-- Private `queryMin(node, start, end, l, r)`.

    if (start > r || end < l) return std::numeric_limits<T>::max();
    updateLazy(node, start, end);
    if (start >= l && end <= r) return tree[node];
    int mid = (start + end) / 2;
    T p1 = queryMin(2*node, start, mid, l, r);
    T p2 = queryMin(2*node+1, mid+1, end, l, r);
    return std::min(p1, p2);
-/
def queryMinAux : Nat → AST → Nat → Nat → Nat → Int → Int → Int × AST
  | 0, s, _, _, _, _, _ => (intMax, s)
  | fuel + 1, s, node, start, e, l, r =>
    if (start : Int) > r ∨ (e : Int) < l then (intMax, s)
    else
      let s := updateLazy s node start e
      if (start : Int) ≥ l ∧ (e : Int) ≤ r then (s.tree node, s)
      else
        let mid := (start + e) / 2
        let p1 := queryMinAux fuel s (2 * node) start mid l r
        let p2 := queryMinAux fuel p1.2 (2 * node + 1) (mid + 1) e l r
        (min p1.1 p2.1, p2.2)

/-- Private `build(arr, node, start, end)` (reached only with `n ≥ 1`;
the `n = 0` entry `build(arr, 1, 0, -1)` is modelled separately by
`buildE` below, which tracks vector bounds).

    if (start == end) tree[node] = arr[start];
    else {
      int mid = (start + end) / 2;
      build(arr, 2*node, start, mid);
      build(arr, 2*node+1, mid+1, end);
      tree[node] = tree[2*node] + tree[2*node+1];
    }
-/
def buildAux (arr : List Int) : Nat → AST → Nat → Nat → Nat → AST
  | 0, s, _, _, _ => s
  | fuel + 1, s, node, start, e =>
    if start = e then { s with tree := upd s.tree node (arr.getD start 0) }
    else
      let mid := (start + e) / 2
      let s := buildAux arr fuel s (2 * node) start mid
      let s := buildAux arr fuel s (2 * node + 1) (mid + 1) e
      { s with tree := upd s.tree node (s.tree (2 * node) + s.tree (2 * node + 1)) }

/-- The constructor `AdvancedSegmentTree(arr)`: `tree` and `lazy` are
zero-initialised (`resize(4n)` / `resize(4n, 0)`), then
`build(arr, 1, 0, n-1)`. -/
def mkTree (arr : List Int) : AST :=
  buildAux arr arr.length { tree := fun _ => 0, lazy := fun _ => 0, n := arr.length } 1 0
    (arr.length - 1)

/-- Public `updateRange(l, r, val)` = `updateRange(1, 0, n-1, l, r, val)`. -/
def updateRange (s : AST) (l r val : Int) : AST :=
  updateRangeAux s.n s 1 0 (s.n - 1) l r val

/-- Public `querySum(l, r)` = `queryRange(1, 0, n-1, l, r)`. -/
def querySum (s : AST) (l r : Int) : Int × AST :=
  queryRangeAux s.n s 1 0 (s.n - 1) l r

/-- Public `updatePoint(idx, val)` = `updatePoint(1, 0, n-1, idx, val)`. -/
def updatePoint (s : AST) (idx val : Int) : AST :=
  updatePointAux s.n s 1 0 (s.n - 1) idx val

/-- Public `queryMin(l, r)` = `queryMin(1, 0, n-1, l, r)`. -/
def queryMin (s : AST) (l r : Int) : Int × AST :=
  queryMinAux s.n s 1 0 (s.n - 1) l r

/-! ### Specification-side definitions (denotation of a tree state)

`elemAt s node start e i` is the current logical value of element `i` of the
subtree rooted at `node` covering `[start, e]`: the leaf aggregate plus every
pending delta stored on the path from `node` down to the leaf of `i` (the
`lazy` of each node on the path must still be applied to its whole range, so
it contributes once to each element below it).  `denSum` is the sum of these
logical values over the node's range, and `WFa` is the structural invariant
the code maintains: at every internal node, `tree[node]` equals the sum of the
two children's logical range sums (the node's own `lazy` is *not* yet folded
into `tree[node]`, matching `updateLazy`). -/

def elemAt (s : AST) (node start e i : Nat) : Int :=
  if e ≤ start then s.tree node + s.lazy node
  else
    let mid := (start + e) / 2
    if i ≤ mid then s.lazy node + elemAt s (2 * node) start mid i
    else s.lazy node + elemAt s (2 * node + 1) (mid + 1) e i
termination_by e - start
decreasing_by all_goals omega

def denSum (s : AST) (node start e : Nat) : Int :=
  if e ≤ start then s.tree node + s.lazy node
  else
    let mid := (start + e) / 2
    s.lazy node * ((e : Int) - (start : Int) + 1) + denSum s (2 * node) start mid +
      denSum s (2 * node + 1) (mid + 1) e
termination_by e - start
decreasing_by all_goals omega

def WFa (s : AST) (node start e : Nat) : Prop :=
  if e ≤ start then True
  else
    let mid := (start + e) / 2
    s.tree node = denSum s (2 * node) start mid + denSum s (2 * node + 1) (mid + 1) e ∧
      WFa s (2 * node) start mid ∧ WFa s (2 * node + 1) (mid + 1) e
termination_by e - start
decreasing_by all_goals omega

/-- Well-formedness of a whole tree state: the invariant at the root call
`(1, 0, n-1)` used by every public operation. -/
def WFt (s : AST) : Prop := WFa s 1 0 (s.n - 1)

/-- The current logical sequence represented by the tree (element `i`). -/
def curSeq (s : AST) (i : Nat) : Int := elemAt s 1 0 (s.n - 1) i

/-- Sum of the current logical elements over `[0, n-1] ∩ [l, r]`. -/
def clipSum (s : AST) (l r : Int) : Int :=
  ∑ i ∈ (Finset.Icc 0 (s.n - 1)).filter (fun i : Nat => l ≤ (i : Int) ∧ (i : Int) ≤ r),
    curSeq s i

/-- Slot membership: `m` is a slot of the (implicit, `2i`/`2i+1`-indexed) subtree rooted at
`c`: some number of halvings of `m` reaches `c`. -/
def inSub (c m : Nat) : Prop := ∃ k, m / 2 ^ k = c

/-- Two states agree on every slot of the subtree rooted at `c`. -/
def AgreeOn (s s' : AST) (c : Nat) : Prop :=
  ∀ m, inSub c m → s.tree m = s'.tree m ∧ s.lazy m = s'.lazy m

/-- The value `queryMin(node, start, end, l, r)` actually returns, as a
function of the logical elements `f` of the node's range: the minimum over
the maximal covered nodes of the *range sums* (not the range minima) of the
decomposition, with `INT_MAX` for disjoint parts. -/
def minSpec (f : Nat → Int) (start e : Nat) (l r : Int) : Int :=
  if (start : Int) > r ∨ (e : Int) < l then intMax
  else if (start : Int) ≥ l ∧ (e : Int) ≤ r then ∑ i ∈ Finset.Icc start e, f i
  else
    let mid := (start + e) / 2
    min (minSpec f start mid l r) (minSpec f (mid + 1) e l r)
termination_by e - start
decreasing_by all_goals omega

/-- The leaf index at which the `updatePoint` descent for `idx` lands
(equal to `idx` whenever `start ≤ idx ≤ e`). -/
def target (start e : Nat) (idx : Int) : Nat :=
  if e ≤ start then start
  else
    let mid := (start + e) / 2
    if idx ≤ (mid : Int) then target start mid idx else target (mid + 1) e idx
termination_by e - start
decreasing_by all_goals omega

/-! ### Paths from the root (for the push-apply invariant, claim C6) -/

/-- Follow a list of directions (`true` = left child) from a positioned node,
reproducing the code's `2*node` / `2*node+1`, `mid = (start+end)/2` split. -/
def descend : Nat × Nat × Nat → List Bool → Nat × Nat × Nat
  | p, [] => p
  | (node, start, e), d :: ds =>
    let mid := (start + e) / 2
    descend (if d then (2 * node, start, mid) else (2 * node + 1, mid + 1, e)) ds

/-- The path only descends from internal nodes (never below a leaf). -/
def okPath : Nat × Nat × Nat → List Bool → Prop
  | _, [] => True
  | (node, start, e), d :: ds =>
    let mid := (start + e) / 2
    start < e ∧ okPath (if d then (2 * node, start, mid) else (2 * node + 1, mid + 1, e)) ds

/-- Sum of the pending (`lazy`) values of the strict ancestors along a path:
the deltas that still have to be forwarded down to the path's endpoint. -/
def pathPending (s : AST) : Nat × Nat × Nat → List Bool → Int
  | _, [] => 0
  | (node, start, e), d :: ds =>
    let mid := (start + e) / 2
    s.lazy node +
      pathPending s (if d then (2 * node, start, mid) else (2 * node + 1, mid + 1, e)) ds

/-- Structural shape of the freshly built tree (claim C5): every leaf slot
holds the corresponding input element and every internal slot holds the sum
of its two children's slots. -/
def structOK (arr : List Int) (t : Nat → Int) (node start e : Nat) : Prop :=
  if e ≤ start then t node = arr.getD start 0
  else
    let mid := (start + e) / 2
    t node = t (2 * node) + t (2 * node + 1) ∧ structOK arr t (2 * node) start mid ∧
      structOK arr t (2 * node + 1) (mid + 1) e
termination_by e - start
decreasing_by all_goals omega

/-! ### Public operation sequences (for observational purity, claim C9) -/

/-- One public call on the tree, with arbitrary (possibly invalid) args. -/
inductive Cmd where
  | qSum (l r : Int)
  | qMin (l r : Int)
  | uRange (l r v : Int)
  | uPoint (idx v : Int)

/-- Run one command: queries return `some` value, updates return `none`. -/
def runCmd (s : AST) : Cmd → Option Int × AST
  | .qSum l r => (some (querySum s l r).1, (querySum s l r).2)
  | .qMin l r => (some (queryMin s l r).1, (queryMin s l r).2)
  | .uRange l r v => (none, updateRange s l r v)
  | .uPoint idx v => (none, updatePoint s idx v)

/-- Run a command list, collecting the returned values. -/
def runCmds (s : AST) : List Cmd → List (Option Int) × AST
  | [] => ([], s)
  | c :: cs =>
    ((runCmd s c).1 :: (runCmds (runCmd s c).2 cs).1, (runCmds (runCmd s c).2 cs).2)

/-! ### Bounds-checked constructor (claim C7)

The C++ constructor sets `n = arr.size()`, resizes `tree`/`lazy` to `4n`,
and calls `build(arr, 1, 0, n-1)`.  For `n = 0` that call is
`build(arr, 1, 0, -1)`, whose indices leave the vectors: `buildE` is the same
recursion with every `std::vector` subscript bounds-checked (C++ `operator[]`
performs no check — out of range access is undefined behaviour, which this
model surfaces as an explicit error).  `start`/`end` are `Int` here because
the `n = 0` call genuinely passes `-1`. -/

inductive BErr where
  | oobRead
  | oobWrite
  | fuelOut

def buildE (arr : List Int) (sz : Nat) : Nat → (Nat → Int) → Nat → Int → Int → Except BErr (Nat → Int)
  | 0, _, _, _, _ => .error .fuelOut
  | fuel + 1, t, node, start, e =>
    if start = e then
      if 0 ≤ start ∧ start < (arr.length : Int) then
        if node < sz then .ok (upd t node (arr.getD start.toNat 0)) else .error .oobWrite
      else .error .oobRead
    else
      let mid := Int.tdiv (start + e) 2
      match buildE arr sz fuel t (2 * node) start mid with
      | .error err => .error err
      | .ok t =>
        match buildE arr sz fuel t (2 * node + 1) (mid + 1) e with
        | .error err => .error err
        | .ok t =>
          if 2 * node + 1 < sz then .ok (upd t node (t (2 * node) + t (2 * node + 1)))
          else if node < sz then .error .oobRead
          else .error .oobWrite

/-- Constructor `AdvancedSegmentTree(arr)` with bounds tracking: `build(arr, 1, 0, n-1)`
on vectors of size `4n`.  The fuel `arr.length + 2` is enough to reach the
first fault of the empty-sequence call and never runs out on `n ≥ 1`. -/
def construct (arr : List Int) : Except BErr (Nat → Int) :=
  buildE arr (4 * arr.length) (arr.length + 2) (fun _ => 0) 1 0 ((arr.length : Int) - 1)

end SegTree

namespace Fenwick

/-!
Model of `BinaryIndexedTree<T>` (instantiated at `T = int` by its callers):

    BinaryIndexedTree(const std::vector<T>& arr) {
        n = arr.size();
        bit.assign(n + 1, 0);
        for (int i = 0; i < n; i++) update(i, arr[i]);
    }
    void update(int idx, T val) {
        for (++idx; idx <= n; idx += idx & -idx) bit[idx] += val;
    }
    T query(int idx) {
        T sum = 0;
        for (++idx; idx > 0; idx -= idx & -idx) sum += bit[idx];
        return sum;
    }
    T rangeQuery(int l, int r) { return query(r) - (l > 0 ? query(l - 1) : 0); }

`idx & -idx` on a two's-complement `int` is the lowest set bit; `lowBit`
computes it by recursion on the binary representation (with a structural
fuel so the kernel can evaluate it; fuel `i` always suffices).  The loops
are modelled with fuel as well; the public wrappers pass enough fuel for
every execution that the C++ loops themselves finish. -/

def lowBitGo : Nat → Nat → Nat
  | 0, _ => 0
  | fuel + 1, i => if i = 0 then 0 else if i % 2 = 1 then 1 else 2 * lowBitGo fuel (i / 2)

/-- The lowest set bit of `i` (the value of `i & -i`); `0` for `i = 0`. -/
def lowBit (i : Nat) : Nat := lowBitGo i i

/-- State of a `BinaryIndexedTree<int>`: slot array (1-based) and size. -/
structure BIT where
  bit : Nat → Int
  n : Nat

/-- The `update` loop body, from current index `i` (already incremented). -/
def updateAux : Nat → Nat → Int → (Nat → Int) → Nat → (Nat → Int)
  | 0, _, _, b, _ => b
  | fuel + 1, n, v, b, i =>
    if i ≤ n then updateAux fuel n v (SegTree.upd b i (b i + v)) (i + lowBit i) else b

/-- Member `update(idx, val)`. -/
def update (t : BIT) (idx : Nat) (v : Int) : BIT :=
  { t with bit := updateAux (t.n + 1) t.n v t.bit (idx + 1) }

/-- The `query` loop body, from current index `i` (already incremented). -/
def queryAux : Nat → (Nat → Int) → Nat → Int
  | 0, _, _ => 0
  | fuel + 1, b, i => if 0 < i then b i + queryAux fuel b (i - lowBit i) else 0

/-- Member `query(idx)`: prefix sum over `[0, idx]`. -/
def query (t : BIT) (idx : Nat) : Int := queryAux (idx + 2) t.bit (idx + 1)

/-- Member `rangeQuery(l, r) = query(r) - (l > 0 ? query(l - 1) : 0)`. -/
def rangeQuery (t : BIT) (l r : Nat) : Int :=
  query t r - (if 0 < l then query t (l - 1) else 0)

/-- Apply a list of `update(idx, delta)` calls in order. -/
def applyUpdates (t : BIT) : List (Nat × Int) → BIT
  | [] => t
  | u :: us => applyUpdates (update t u.1 u.2) us

/-- The constructor `BinaryIndexedTree(arr)`. -/
def mkBIT (arr : List Int) : BIT :=
  applyUpdates { bit := fun _ => 0, n := arr.length }
    ((List.range arr.length).map fun i => (i, arr.getD i 0))

/-- The current logical element at 0-based index `j` after building from
`arr` and applying the update list `us`. -/
def curElem (arr : List Int) (us : List (Nat × Int)) (j : Nat) : Int :=
  arr.getD j 0 + ((us.filter fun u => u.1 = j).map Prod.snd).sum

/-- Membership in the index chain visited by the `update` loop starting at
`i` (same fuel discipline as `updateAux`). -/
def chainMem : Nat → Nat → Nat → Nat → Prop
  | 0, _, _, _ => False
  | fuel + 1, n, i, m => if i ≤ n then m = i ∨ chainMem fuel n (i + lowBit i) m else False

/-- The Fenwick invariant: slot `i` (for `1 ≤ i ≤ n`) holds the sum of the
1-based logical elements over its responsibility range `(i - lowBit i, i]`. -/
def Ideal (n : Nat) (b : Nat → Int) (a : Nat → Int) : Prop :=
  ∀ i, 1 ≤ i → i ≤ n → b i = ∑ k ∈ Finset.Ioc (i - lowBit i) i, a k

end Fenwick

/-! ## Theorems -/

namespace SegTree

theorem upd_same (f : Nat → Int) (i : Nat) (v : Int) : upd f i v i = v := by
  simp [upd]

theorem upd_other (f : Nat → Int) {i j : Nat} (v : Int) (h : j ≠ i) : upd f i v j = f j := by
  simp [upd, h]

theorem inSub_refl (c : Nat) : inSub c c := ⟨0, by simp⟩

theorem inSub_le {c m : Nat} (h : inSub c m) : c ≤ m := by
  obtain ⟨k, hk⟩ := h
  exact hk ▸ Nat.div_le_self m (2 ^ k)

theorem inSub_trans {c d m : Nat} (h1 : inSub c m) (h2 : inSub d c) : inSub d m := by
  obtain ⟨k1, hk1⟩ := h1
  obtain ⟨k2, hk2⟩ := h2
  exact ⟨k1 + k2, by rw [pow_add, ← Nat.div_div_eq_div_mul, hk1, hk2]⟩

theorem inSub_left (c : Nat) : inSub c (2 * c) := ⟨1, by omega⟩

theorem inSub_right (c : Nat) : inSub c (2 * c + 1) := ⟨1, by omega⟩

theorem not_inSub_of_lt {c m : Nat} (h : m < c) : ¬ inSub c m :=
  fun hs => absurd (inSub_le hs) (by omega)

/-- The two child subtrees of a node `c ≥ 1` are disjoint index sets. -/
theorem inSub_sibling_disj {c m : Nat} (hc : 1 ≤ c) (h1 : inSub (2 * c) m)
    (h2 : inSub (2 * c + 1) m) : False := by
  obtain ⟨k1, hk1⟩ := h1
  obtain ⟨k2, hk2⟩ := h2
  rcases Nat.le_total k1 k2 with h | h
  · have hdd : m / 2 ^ k2 = (m / 2 ^ k1) / 2 ^ (k2 - k1) := by
      rw [Nat.div_div_eq_div_mul, ← pow_add, Nat.add_sub_cancel' h]
    rcases Nat.eq_or_lt_of_le h with rfl | hlt
    · omega
    · have h1' : 1 ≤ k2 - k1 := by omega
      have : (2 * c) / 2 ^ (k2 - k1) ≤ (2 * c) / 2 ^ 1 :=
        Nat.div_le_div_left (Nat.pow_le_pow_right (by omega) h1') (by positivity)
      have h2' : (2 * c) / 2 ^ 1 = c := by omega
      rw [hdd, hk1] at hk2
      omega
  · have hdd : m / 2 ^ k1 = (m / 2 ^ k2) / 2 ^ (k1 - k2) := by
      rw [Nat.div_div_eq_div_mul, ← pow_add, Nat.add_sub_cancel' h]
    rcases Nat.eq_or_lt_of_le h with rfl | hlt
    · omega
    · have h1' : 1 ≤ k1 - k2 := by omega
      have : (2 * c + 1) / 2 ^ (k1 - k2) ≤ (2 * c + 1) / 2 ^ 1 :=
        Nat.div_le_div_left (Nat.pow_le_pow_right (by omega) h1') (by positivity)
      have h2' : (2 * c + 1) / 2 ^ 1 = c := by omega
      rw [hdd, hk2] at hk1
      omega

theorem not_inSub_sibling_right {c : Nat} (hc : 1 ≤ c) : ¬ inSub (2 * c) (2 * c + 1) :=
  fun h => inSub_sibling_disj hc h (inSub_refl _)

theorem not_inSub_sibling_left {c : Nat} (hc : 1 ≤ c) : ¬ inSub (2 * c + 1) (2 * c) :=
  fun h => inSub_sibling_disj hc (inSub_refl _) h

/-! ### Unfolding lemmas for the recursive denotation functions -/

theorem elemAt_leaf {s : AST} {node start e i : Nat} (h : e ≤ start) :
    elemAt s node start e i = s.tree node + s.lazy node := by
  rw [elemAt]
  simp [h]

theorem elemAt_node {s : AST} {node start e i : Nat} (h : start < e) :
    elemAt s node start e i =
      if i ≤ (start + e) / 2 then s.lazy node + elemAt s (2 * node) start ((start + e) / 2) i
      else s.lazy node + elemAt s (2 * node + 1) ((start + e) / 2 + 1) e i := by
  rw [elemAt]
  simp [show ¬ e ≤ start by omega]

theorem denSum_leaf {s : AST} {node start e : Nat} (h : e ≤ start) :
    denSum s node start e = s.tree node + s.lazy node := by
  rw [denSum]
  simp [h]

theorem denSum_node {s : AST} {node start e : Nat} (h : start < e) :
    denSum s node start e =
      s.lazy node * ((e : Int) - (start : Int) + 1) + denSum s (2 * node) start ((start + e) / 2) +
        denSum s (2 * node + 1) ((start + e) / 2 + 1) e := by
  rw [denSum]
  simp [show ¬ e ≤ start by omega]

theorem WFa_leaf {s : AST} {node start e : Nat} (h : e ≤ start) : WFa s node start e := by
  rw [WFa]
  simp [h]

theorem WFa_node {s : AST} {node start e : Nat} (h : start < e) :
    WFa s node start e ↔
      s.tree node =
          denSum s (2 * node) start ((start + e) / 2) +
            denSum s (2 * node + 1) ((start + e) / 2 + 1) e ∧
        WFa s (2 * node) start ((start + e) / 2) ∧ WFa s (2 * node + 1) ((start + e) / 2 + 1) e := by
  rw [WFa]
  simp [show ¬ e ≤ start by omega]

theorem structOK_leaf {arr : List Int} {t : Nat → Int} {node start e : Nat} (h : e ≤ start) :
    structOK arr t node start e ↔ t node = arr.getD start 0 := by
  rw [structOK]
  simp [h]

theorem structOK_node {arr : List Int} {t : Nat → Int} {node start e : Nat} (h : start < e) :
    structOK arr t node start e ↔
      t node = t (2 * node) + t (2 * node + 1) ∧
        structOK arr t (2 * node) start ((start + e) / 2) ∧
        structOK arr t (2 * node + 1) ((start + e) / 2 + 1) e := by
  rw [structOK]
  simp [show ¬ e ≤ start by omega]

theorem minSpec_disj {f : Nat → Int} {start e : Nat} {l r : Int}
    (h : (start : Int) > r ∨ (e : Int) < l) : minSpec f start e l r = intMax := by
  rw [minSpec]
  simp [h]

theorem minSpec_cont {f : Nat → Int} {start e : Nat} {l r : Int}
    (h1 : ¬ ((start : Int) > r ∨ (e : Int) < l)) (h2 : (start : Int) ≥ l ∧ (e : Int) ≤ r) :
    minSpec f start e l r = ∑ i ∈ Finset.Icc start e, f i := by
  rw [minSpec]
  simp [h1, h2]

theorem minSpec_split {f : Nat → Int} {start e : Nat} {l r : Int}
    (h1 : ¬ ((start : Int) > r ∨ (e : Int) < l)) (h2 : ¬ ((start : Int) ≥ l ∧ (e : Int) ≤ r)) :
    minSpec f start e l r =
      min (minSpec f start ((start + e) / 2) l r) (minSpec f ((start + e) / 2 + 1) e l r) := by
  rw [minSpec]
  simp [h1, h2]

theorem target_leaf {start e : Nat} {idx : Int} (h : e ≤ start) : target start e idx = start := by
  rw [target]
  simp [h]

theorem target_node {start e : Nat} {idx : Int} (h : start < e) :
    target start e idx =
      if idx ≤ (((start + e) / 2 : Nat) : Int) then target start ((start + e) / 2) idx
      else target ((start + e) / 2 + 1) e idx := by
  rw [target]
  simp [show ¬ e ≤ start by omega]

/-! ### Congruence: the denotation of a subtree reads only its own slots -/

theorem elemAt_congr {s s' : AST} :
    ∀ node start e, AgreeOn s s' node → ∀ i, elemAt s node start e i = elemAt s' node start e i := by
  suffices H : ∀ d node start e, e - start ≤ d → AgreeOn s s' node →
      ∀ i, elemAt s node start e i = elemAt s' node start e i by
    exact fun node start e hag i => H (e - start) node start e le_rfl hag i
  intro d
  induction d with
  | zero =>
    intro node start e hd hag i
    have hle : e ≤ start := by omega
    rw [elemAt_leaf hle, elemAt_leaf hle, (hag node (inSub_refl _)).1, (hag node (inSub_refl _)).2]
  | succ d ih =>
    intro node start e hd hag i
    by_cases hle : e ≤ start
    · rw [elemAt_leaf hle, elemAt_leaf hle, (hag node (inSub_refl _)).1,
        (hag node (inSub_refl _)).2]
    · have hlt : start < e := by omega
      have hagl : AgreeOn s s' (2 * node) :=
        fun m hm => hag m (inSub_trans hm (inSub_left node))
      have hagr : AgreeOn s s' (2 * node + 1) :=
        fun m hm => hag m (inSub_trans hm (inSub_right node))
      rw [elemAt_node hlt, elemAt_node hlt, (hag node (inSub_refl _)).2,
        ih (2 * node) start ((start + e) / 2) (by omega) hagl i,
        ih (2 * node + 1) ((start + e) / 2 + 1) e (by omega) hagr i]

theorem denSum_congr {s s' : AST} :
    ∀ node start e, AgreeOn s s' node → denSum s node start e = denSum s' node start e := by
  suffices H : ∀ d node start e, e - start ≤ d → AgreeOn s s' node →
      denSum s node start e = denSum s' node start e by
    exact fun node start e hag => H (e - start) node start e le_rfl hag
  intro d
  induction d with
  | zero =>
    intro node start e hd hag
    have hle : e ≤ start := by omega
    rw [denSum_leaf hle, denSum_leaf hle, (hag node (inSub_refl _)).1, (hag node (inSub_refl _)).2]
  | succ d ih =>
    intro node start e hd hag
    by_cases hle : e ≤ start
    · rw [denSum_leaf hle, denSum_leaf hle, (hag node (inSub_refl _)).1,
        (hag node (inSub_refl _)).2]
    · have hlt : start < e := by omega
      have hagl : AgreeOn s s' (2 * node) :=
        fun m hm => hag m (inSub_trans hm (inSub_left node))
      have hagr : AgreeOn s s' (2 * node + 1) :=
        fun m hm => hag m (inSub_trans hm (inSub_right node))
      rw [denSum_node hlt, denSum_node hlt, (hag node (inSub_refl _)).2,
        ih (2 * node) start ((start + e) / 2) (by omega) hagl,
        ih (2 * node + 1) ((start + e) / 2 + 1) e (by omega) hagr]

theorem WFa_congr {s s' : AST} :
    ∀ node start e, AgreeOn s s' node → WFa s node start e → WFa s' node start e := by
  suffices H : ∀ d node start e, e - start ≤ d → AgreeOn s s' node →
      WFa s node start e → WFa s' node start e by
    exact fun node start e hag => H (e - start) node start e le_rfl hag
  intro d
  induction d with
  | zero =>
    intro node start e hd hag _
    exact WFa_leaf (by omega)
  | succ d ih =>
    intro node start e hd hag hwf
    by_cases hle : e ≤ start
    · exact WFa_leaf hle
    · have hlt : start < e := by omega
      have hagl : AgreeOn s s' (2 * node) :=
        fun m hm => hag m (inSub_trans hm (inSub_left node))
      have hagr : AgreeOn s s' (2 * node + 1) :=
        fun m hm => hag m (inSub_trans hm (inSub_right node))
      rw [WFa_node hlt] at hwf ⊢
      refine ⟨?_, ih (2 * node) start ((start + e) / 2) (by omega) hagl hwf.2.1,
        ih (2 * node + 1) ((start + e) / 2 + 1) e (by omega) hagr hwf.2.2⟩
      rw [← (hag node (inSub_refl _)).1, ← denSum_congr _ _ _ hagl, ← denSum_congr _ _ _ hagr]
      exact hwf.1

theorem structOK_congr {arr : List Int} {t t' : Nat → Int} :
    ∀ node start e, (∀ m, inSub node m → t m = t' m) → structOK arr t node start e →
      structOK arr t' node start e := by
  suffices H : ∀ d node start e, e - start ≤ d → (∀ m, inSub node m → t m = t' m) →
      structOK arr t node start e → structOK arr t' node start e by
    exact fun node start e hag => H (e - start) node start e le_rfl hag
  intro d
  induction d with
  | zero =>
    intro node start e hd hag h
    have hle : e ≤ start := by omega
    rw [structOK_leaf hle] at h ⊢
    rw [← hag node (inSub_refl _)]
    exact h
  | succ d ih =>
    intro node start e hd hag h
    by_cases hle : e ≤ start
    · rw [structOK_leaf hle] at h ⊢
      rw [← hag node (inSub_refl _)]
      exact h
    · have hlt : start < e := by omega
      have hagl : ∀ m, inSub (2 * node) m → t m = t' m :=
        fun m hm => hag m (inSub_trans hm (inSub_left node))
      have hagr : ∀ m, inSub (2 * node + 1) m → t m = t' m :=
        fun m hm => hag m (inSub_trans hm (inSub_right node))
      rw [structOK_node hlt] at h ⊢
      refine ⟨?_, ih (2 * node) start ((start + e) / 2) (by omega) hagl h.2.1,
        ih (2 * node + 1) ((start + e) / 2 + 1) e (by omega) hagr h.2.2⟩
      rw [← hag node (inSub_refl _), ← hagl (2 * node) (inSub_refl _),
        ← hagr (2 * node + 1) (inSub_refl _)]
      exact h.1

/-! ### Adding `d` to a node's pending value shifts its whole subtree by `d` -/

theorem elemAt_shift {s s2 : AST} {c : Nat} (hc : 1 ≤ c) {d : Int}
    (ht : ∀ m, inSub c m → s2.tree m = s.tree m)
    (hl : ∀ m, inSub c m → m ≠ c → s2.lazy m = s.lazy m)
    (hd : s2.lazy c = s.lazy c + d) :
    ∀ start e i, elemAt s2 c start e i = elemAt s c start e i + d := by
  intro start e i
  by_cases hle : e ≤ start
  · rw [elemAt_leaf hle, elemAt_leaf hle, ht c (inSub_refl _), hd]
    ring
  · have hlt : start < e := by omega
    have hagl : AgreeOn s2 s (2 * c) := by
      intro m hm
      have hmc : m ≠ c := by
        have := inSub_le hm
        omega
      exact ⟨ht m (inSub_trans hm (inSub_left c)), hl m (inSub_trans hm (inSub_left c)) hmc⟩
    have hagr : AgreeOn s2 s (2 * c + 1) := by
      intro m hm
      have hmc : m ≠ c := by
        have := inSub_le hm
        omega
      exact ⟨ht m (inSub_trans hm (inSub_right c)), hl m (inSub_trans hm (inSub_right c)) hmc⟩
    rw [elemAt_node hlt, elemAt_node hlt, hd]
    split
    · rw [elemAt_congr _ _ _ hagl i]
      ring
    · rw [elemAt_congr _ _ _ hagr i]
      ring

theorem denSum_shift {s s2 : AST} {c : Nat} (hc : 1 ≤ c) {d : Int}
    (ht : ∀ m, inSub c m → s2.tree m = s.tree m)
    (hl : ∀ m, inSub c m → m ≠ c → s2.lazy m = s.lazy m)
    (hd : s2.lazy c = s.lazy c + d) :
    ∀ start e, start ≤ e → denSum s2 c start e = denSum s c start e + d * ((e : Int) - start + 1) := by
  intro start e hse
  by_cases hle : e ≤ start
  · have : e = start := by omega
    subst this
    rw [denSum_leaf le_rfl, denSum_leaf le_rfl, ht c (inSub_refl _), hd]
    ring
  · have hlt : start < e := by omega
    have hagl : AgreeOn s2 s (2 * c) := by
      intro m hm
      have hmc : m ≠ c := by
        have := inSub_le hm
        omega
      exact ⟨ht m (inSub_trans hm (inSub_left c)), hl m (inSub_trans hm (inSub_left c)) hmc⟩
    have hagr : AgreeOn s2 s (2 * c + 1) := by
      intro m hm
      have hmc : m ≠ c := by
        have := inSub_le hm
        omega
      exact ⟨ht m (inSub_trans hm (inSub_right c)), hl m (inSub_trans hm (inSub_right c)) hmc⟩
    rw [denSum_node hlt, denSum_node hlt, hd, denSum_congr _ _ _ hagl, denSum_congr _ _ _ hagr]
    ring

theorem WFa_shift {s s2 : AST} {c : Nat} (hc : 1 ≤ c)
    (ht : ∀ m, inSub c m → s2.tree m = s.tree m)
    (hl : ∀ m, inSub c m → m ≠ c → s2.lazy m = s.lazy m) :
    ∀ start e, WFa s c start e → WFa s2 c start e := by
  intro start e hwf
  by_cases hle : e ≤ start
  · exact WFa_leaf hle
  · have hlt : start < e := by omega
    have hagl : AgreeOn s s2 (2 * c) := by
      intro m hm
      have hmc : m ≠ c := by
        have := inSub_le hm
        omega
      exact ⟨(ht m (inSub_trans hm (inSub_left c))).symm,
        (hl m (inSub_trans hm (inSub_left c)) hmc).symm⟩
    have hagr : AgreeOn s s2 (2 * c + 1) := by
      intro m hm
      have hmc : m ≠ c := by
        have := inSub_le hm
        omega
      exact ⟨(ht m (inSub_trans hm (inSub_right c))).symm,
        (hl m (inSub_trans hm (inSub_right c)) hmc).symm⟩
    rw [WFa_node hlt] at hwf ⊢
    refine ⟨?_, WFa_congr _ _ _ hagl hwf.2.1, WFa_congr _ _ _ hagr hwf.2.2⟩
    rw [ht c (inSub_refl _), ← denSum_congr _ _ _ hagl, ← denSum_congr _ _ _ hagr]
    exact hwf.1

/-! ### `updateLazy`: pointwise effect on the two arrays -/

theorem updateLazy_n (s : AST) (node start e : Nat) : (updateLazy s node start e).n = s.n := by
  simp only [updateLazy]
  split
  · split <;> rfl
  · rfl

theorem updateLazy_tree_frame {s : AST} {node start e m : Nat} (h : m ≠ node) :
    (updateLazy s node start e).tree m = s.tree m := by
  simp only [updateLazy]
  split
  · split <;> simp [upd, h]
  · rfl

theorem updateLazy_lazy_frame {s : AST} {node start e m : Nat} (h1 : m ≠ node)
    (h2 : m ≠ 2 * node) (h3 : m ≠ 2 * node + 1) :
    (updateLazy s node start e).lazy m = s.lazy m := by
  simp only [updateLazy]
  split
  · split <;> simp [upd, h1, h2, h3]
  · rfl

theorem updateLazy_lazy_node (s : AST) (node start e : Nat) :
    (updateLazy s node start e).lazy node = 0 := by
  simp only [updateLazy]
  split
  next h => split <;> simp [upd]
  next h => simpa using h

theorem updateLazy_tree_node (s : AST) (node start e : Nat) :
    (updateLazy s node start e).tree node =
      s.tree node + s.lazy node * ((e : Int) - (start : Int) + 1) := by
  simp only [updateLazy]
  split
  next h => split <;> simp [upd]
  next h =>
    push_neg at h
    simp [h]

theorem updateLazy_lazy_left {s : AST} {node start e : Nat} (hn : 1 ≤ node) (hne : start ≠ e) :
    (updateLazy s node start e).lazy (2 * node) = s.lazy (2 * node) + s.lazy node := by
  by_cases h : s.lazy node = 0
  · simp [updateLazy, h]
  · simp [updateLazy, h, hne, upd, show ¬ (2 * node = node) by omega,
      show ¬ (2 * node = 2 * node + 1) by omega]

theorem updateLazy_lazy_right {s : AST} {node start e : Nat} (hn : 1 ≤ node) (hne : start ≠ e) :
    (updateLazy s node start e).lazy (2 * node + 1) = s.lazy (2 * node + 1) + s.lazy node := by
  by_cases h : s.lazy node = 0
  · simp [updateLazy, h]
  · simp [updateLazy, h, hne, upd, show ¬ (2 * node + 1 = node) by omega,
      show ¬ (2 * node + 1 = 2 * node) by omega]

theorem updateLazy_agree_out {s : AST} {node start e : Nat} (hn : 1 ≤ node) :
    ∀ m, ¬ inSub node m →
      (updateLazy s node start e).tree m = s.tree m ∧
        (updateLazy s node start e).lazy m = s.lazy m := by
  intro m hm
  have h1 : m ≠ node := fun h => hm (h ▸ inSub_refl node)
  have h2 : m ≠ 2 * node := fun h => hm (h ▸ inSub_left node)
  have h3 : m ≠ 2 * node + 1 := fun h => hm (h ▸ inSub_right node)
  exact ⟨updateLazy_tree_frame h1, updateLazy_lazy_frame h1 h2 h3⟩

/-! ### `updateLazy`: semantic effect (push-apply preserves the denotation) -/

theorem updateLazy_shift_left {s : AST} {node start e : Nat} (hn : 1 ≤ node) (hne : start < e) :
    ∀ start2 e2 i, elemAt (updateLazy s node start e) (2 * node) start2 e2 i =
      elemAt s (2 * node) start2 e2 i + s.lazy node := by
  intro start2 e2 i
  refine elemAt_shift (by omega) ?_ ?_ (updateLazy_lazy_left hn (by omega)) start2 e2 i
  · intro m hm
    exact updateLazy_tree_frame (by have := inSub_le hm; omega)
  · intro m hm hmne
    refine updateLazy_lazy_frame (by have := inSub_le hm; omega) hmne ?_
    intro hcon
    exact not_inSub_sibling_right hn (hcon ▸ hm)

theorem updateLazy_shift_right {s : AST} {node start e : Nat} (hn : 1 ≤ node) (hne : start < e) :
    ∀ start2 e2 i, elemAt (updateLazy s node start e) (2 * node + 1) start2 e2 i =
      elemAt s (2 * node + 1) start2 e2 i + s.lazy node := by
  intro start2 e2 i
  refine elemAt_shift (by omega) ?_ ?_ (updateLazy_lazy_right hn (by omega)) start2 e2 i
  · intro m hm
    exact updateLazy_tree_frame (by have := inSub_le hm; omega)
  · intro m hm hmne
    refine updateLazy_lazy_frame (by have := inSub_le hm; omega) ?_ hmne
    intro hcon
    exact not_inSub_sibling_left hn (hcon ▸ hm)

theorem updateLazy_elemAt {s : AST} {node start e : Nat} (hn : 1 ≤ node) (hse : start ≤ e) :
    ∀ i, elemAt (updateLazy s node start e) node start e i = elemAt s node start e i := by
  intro i
  by_cases hle : e ≤ start
  · have : e = start := by omega
    subst this
    rw [elemAt_leaf le_rfl, elemAt_leaf le_rfl, updateLazy_tree_node, updateLazy_lazy_node]
    have : (e : Int) - (e : Int) + 1 = 1 := by ring
    rw [this]
    ring
  · have hlt : start < e := by omega
    rw [elemAt_node hlt, elemAt_node hlt, updateLazy_lazy_node]
    split
    · rw [updateLazy_shift_left hn hlt]
      ring
    · rw [updateLazy_shift_right hn hlt]
      ring

theorem updateLazy_denSum {s : AST} {node start e : Nat} (hn : 1 ≤ node) (hse : start ≤ e) :
    denSum (updateLazy s node start e) node start e = denSum s node start e := by
  by_cases hle : e ≤ start
  · have : e = start := by omega
    subst this
    rw [denSum_leaf le_rfl, denSum_leaf le_rfl, updateLazy_tree_node, updateLazy_lazy_node]
    have : (e : Int) - (e : Int) + 1 = 1 := by ring
    rw [this]
    ring
  · have hlt : start < e := by omega
    have hm1 : start ≤ (start + e) / 2 := by omega
    have hm2 : (start + e) / 2 < e := by omega
    have hdl : denSum (updateLazy s node start e) (2 * node) start ((start + e) / 2) =
        denSum s (2 * node) start ((start + e) / 2) +
          s.lazy node * ((((start + e) / 2 : Nat) : Int) - (start : Int) + 1) := by
      refine denSum_shift (by omega) ?_ ?_ (updateLazy_lazy_left hn (by omega)) _ _ hm1
      · intro m hm
        exact updateLazy_tree_frame (by have := inSub_le hm; omega)
      · intro m hm hmne
        refine updateLazy_lazy_frame (by have := inSub_le hm; omega) hmne ?_
        intro hcon
        exact not_inSub_sibling_right hn (hcon ▸ hm)
    have hdr : denSum (updateLazy s node start e) (2 * node + 1) ((start + e) / 2 + 1) e =
        denSum s (2 * node + 1) ((start + e) / 2 + 1) e +
          s.lazy node * ((e : Int) - ((((start + e) / 2 + 1 : Nat)) : Int) + 1) := by
      refine denSum_shift (by omega) ?_ ?_ (updateLazy_lazy_right hn (by omega)) _ _ (by omega)
      · intro m hm
        exact updateLazy_tree_frame (by have := inSub_le hm; omega)
      · intro m hm hmne
        refine updateLazy_lazy_frame (by have := inSub_le hm; omega) ?_ hmne
        intro hcon
        exact not_inSub_sibling_left hn (hcon ▸ hm)
    rw [denSum_node hlt, denSum_node hlt, updateLazy_lazy_node, hdl, hdr]
    have hlen : ((((start + e) / 2 : Nat)) : Int) - (start : Int) + 1 +
        ((e : Int) - ((((start + e) / 2 + 1 : Nat)) : Int) + 1) = (e : Int) - (start : Int) + 1 := by
      push_cast
      omega
    linear_combination s.lazy node * hlen

theorem updateLazy_WFa {s : AST} {node start e : Nat} (hn : 1 ≤ node) (hse : start ≤ e)
    (hwf : WFa s node start e) : WFa (updateLazy s node start e) node start e := by
  by_cases hle : e ≤ start
  · exact WFa_leaf hle
  · have hlt : start < e := by omega
    have hshl : ∀ m, inSub (2 * node) m → (updateLazy s node start e).tree m = s.tree m :=
      fun m hm => updateLazy_tree_frame (by have := inSub_le hm; omega)
    have hshl2 : ∀ m, inSub (2 * node) m → m ≠ 2 * node →
        (updateLazy s node start e).lazy m = s.lazy m := by
      intro m hm hmne
      refine updateLazy_lazy_frame (by have := inSub_le hm; omega) hmne ?_
      intro hcon
      exact not_inSub_sibling_right hn (hcon ▸ hm)
    have hshr : ∀ m, inSub (2 * node + 1) m → (updateLazy s node start e).tree m = s.tree m :=
      fun m hm => updateLazy_tree_frame (by have := inSub_le hm; omega)
    have hshr2 : ∀ m, inSub (2 * node + 1) m → m ≠ 2 * node + 1 →
        (updateLazy s node start e).lazy m = s.lazy m := by
      intro m hm hmne
      refine updateLazy_lazy_frame (by have := inSub_le hm; omega) ?_ hmne
      intro hcon
      exact not_inSub_sibling_left hn (hcon ▸ hm)
    rw [WFa_node hlt] at hwf ⊢
    refine ⟨?_,
      WFa_shift (by omega) hshl hshl2 _ _ hwf.2.1,
      WFa_shift (by omega) hshr hshr2 _ _ hwf.2.2⟩
    have hdl := denSum_shift (show 1 ≤ 2 * node by omega) hshl hshl2
      (updateLazy_lazy_left hn (by omega)) start ((start + e) / 2) (by omega)
    have hdr := denSum_shift (show 1 ≤ 2 * node + 1 by omega) hshr hshr2
      (updateLazy_lazy_right hn (by omega)) ((start + e) / 2 + 1) e (by omega)
    rw [updateLazy_tree_node, hdl, hdr, hwf.1]
    have hlen : ((((start + e) / 2 : Nat)) : Int) - (start : Int) + 1 +
        ((e : Int) - ((((start + e) / 2 + 1 : Nat)) : Int) + 1) = (e : Int) - (start : Int) + 1 := by
      push_cast
      omega
    linear_combination (-(s.lazy node)) * hlen

/-- After push-apply, the node's aggregate is the true sum of its range. -/
theorem updateLazy_tree_denSum {s : AST} {node start e : Nat} (hn : 1 ≤ node) (hse : start ≤ e)
    (hwf : WFa s node start e) :
    (updateLazy s node start e).tree node = denSum s node start e := by
  by_cases hle : e ≤ start
  · have : e = start := by omega
    subst this
    rw [updateLazy_tree_node, denSum_leaf le_rfl]
    have : (e : Int) - (e : Int) + 1 = 1 := by ring
    rw [this]
    ring
  · have hlt : start < e := by omega
    rw [WFa_node hlt] at hwf
    rw [updateLazy_tree_node, denSum_node hlt, hwf.1]
    ring

theorem updateLazy_denSum_left {s : AST} {node start e : Nat} (hn : 1 ≤ node) (hne : start < e) :
    ∀ start2 e2, start2 ≤ e2 →
      denSum (updateLazy s node start e) (2 * node) start2 e2 =
        denSum s (2 * node) start2 e2 + s.lazy node * ((e2 : Int) - (start2 : Int) + 1) := by
  intro start2 e2 h2
  refine denSum_shift (by omega) ?_ ?_ (updateLazy_lazy_left hn (by omega)) _ _ h2
  · intro m hm
    exact updateLazy_tree_frame (by have := inSub_le hm; omega)
  · intro m hm hmne
    refine updateLazy_lazy_frame (by have := inSub_le hm; omega) hmne ?_
    intro hcon
    exact not_inSub_sibling_right hn (hcon ▸ hm)

theorem updateLazy_denSum_right {s : AST} {node start e : Nat} (hn : 1 ≤ node) (hne : start < e) :
    ∀ start2 e2, start2 ≤ e2 →
      denSum (updateLazy s node start e) (2 * node + 1) start2 e2 =
        denSum s (2 * node + 1) start2 e2 + s.lazy node * ((e2 : Int) - (start2 : Int) + 1) := by
  intro start2 e2 h2
  refine denSum_shift (by omega) ?_ ?_ (updateLazy_lazy_right hn (by omega)) _ _ h2
  · intro m hm
    exact updateLazy_tree_frame (by have := inSub_le hm; omega)
  · intro m hm hmne
    refine updateLazy_lazy_frame (by have := inSub_le hm; omega) ?_ hmne
    intro hcon
    exact not_inSub_sibling_left hn (hcon ▸ hm)

/-! ### Interval sum bookkeeping -/

theorem sum_Icc_split {start mid e : Nat} (hm1 : start ≤ mid) (hm2 : mid < e) (f : Nat → Int) :
    ∑ i ∈ Finset.Icc start e, f i =
      (∑ i ∈ Finset.Icc start mid, f i) + ∑ i ∈ Finset.Icc (mid + 1) e, f i := by
  have hu : Finset.Icc start e = Finset.Icc start mid ∪ Finset.Icc (mid + 1) e := by
    ext x
    simp only [Finset.mem_Icc, Finset.mem_union]
    omega
  rw [hu, Finset.sum_union]
  rw [Finset.disjoint_left]
  intro a ha hb
  simp only [Finset.mem_Icc] at ha hb
  omega

theorem sum_filter_Icc_split {start mid e : Nat} (hm1 : start ≤ mid) (hm2 : mid < e)
    (f : Nat → Int) (p : Nat → Prop) [DecidablePred p] :
    ∑ i ∈ (Finset.Icc start e).filter p, f i =
      (∑ i ∈ (Finset.Icc start mid).filter p, f i) +
        ∑ i ∈ ((Finset.Icc (mid + 1) e).filter p), f i := by
  have hu : Finset.Icc start e = Finset.Icc start mid ∪ Finset.Icc (mid + 1) e := by
    ext x
    simp only [Finset.mem_Icc, Finset.mem_union]
    omega
  rw [hu, Finset.filter_union, Finset.sum_union]
  refine Finset.disjoint_filter_filter ?_
  rw [Finset.disjoint_left]
  intro a ha hb
  simp only [Finset.mem_Icc] at ha hb
  omega

/-- The recursive range sum equals the sum of the logical elements. -/
theorem denSum_eq_sum {s : AST} :
    ∀ node start e, start ≤ e →
      denSum s node start e = ∑ i ∈ Finset.Icc start e, elemAt s node start e i := by
  suffices H : ∀ d node start e, e - start ≤ d → start ≤ e →
      denSum s node start e = ∑ i ∈ Finset.Icc start e, elemAt s node start e i by
    exact fun node start e hse => H (e - start) node start e le_rfl hse
  intro d
  induction d with
  | zero =>
    intro node start e hd hse
    have : e = start := by omega
    subst this
    rw [denSum_leaf le_rfl, Finset.Icc_self, Finset.sum_singleton, elemAt_leaf le_rfl]
  | succ d ih =>
    intro node start e hd hse
    by_cases hle : e ≤ start
    · have : e = start := by omega
      subst this
      rw [denSum_leaf le_rfl, Finset.Icc_self, Finset.sum_singleton, elemAt_leaf le_rfl]
    · have hlt : start < e := by omega
      have hm1 : start ≤ (start + e) / 2 := by omega
      have hm2 : (start + e) / 2 < e := by omega
      have hL : ∀ i ∈ Finset.Icc start ((start + e) / 2),
          elemAt s node start e i =
            s.lazy node + elemAt s (2 * node) start ((start + e) / 2) i := by
        intro i hi
        simp only [Finset.mem_Icc] at hi
        rw [elemAt_node hlt, if_pos (by omega)]
      have hR : ∀ i ∈ Finset.Icc ((start + e) / 2 + 1) e,
          elemAt s node start e i =
            s.lazy node + elemAt s (2 * node + 1) ((start + e) / 2 + 1) e i := by
        intro i hi
        simp only [Finset.mem_Icc] at hi
        rw [elemAt_node hlt, if_neg (by omega)]
      rw [denSum_node hlt, ih (2 * node) start ((start + e) / 2) (by omega) (by omega),
        ih (2 * node + 1) ((start + e) / 2 + 1) e (by omega) (by omega),
        sum_Icc_split hm1 hm2, Finset.sum_congr rfl hL, Finset.sum_congr rfl hR,
        Finset.sum_add_distrib, Finset.sum_add_distrib, Finset.sum_const, Finset.sum_const,
        Nat.card_Icc, Nat.card_Icc, nsmul_eq_mul, nsmul_eq_mul]
      have c1 : ((((start + e) / 2 + 1 - start : Nat)) : Int) =
          (((start + e) / 2 : Nat) : Int) - (start : Int) + 1 := by omega
      have c2 : ((e + 1 - ((start + e) / 2 + 1) : Nat) : Int) =
          (e : Int) - (((start + e) / 2 : Nat) : Int) := by omega
      rw [c1, c2]
      ring

/-! ### `queryRange` master lemma: value, invariant, denotation, frame -/

theorem queryRangeAux_spec :
    ∀ fuel node start e s l r, e - start < fuel → 1 ≤ node → start ≤ e → WFa s node start e →
      (queryRangeAux fuel s node start e l r).1 =
          (∑ i ∈ (Finset.Icc start e).filter (fun i : Nat => l ≤ (i : Int) ∧ (i : Int) ≤ r),
            elemAt s node start e i) ∧
        WFa (queryRangeAux fuel s node start e l r).2 node start e ∧
        (∀ i, elemAt (queryRangeAux fuel s node start e l r).2 node start e i =
          elemAt s node start e i) ∧
        (∀ m, ¬ inSub node m → (queryRangeAux fuel s node start e l r).2.tree m = s.tree m ∧
          (queryRangeAux fuel s node start e l r).2.lazy m = s.lazy m) ∧
        (queryRangeAux fuel s node start e l r).2.n = s.n := by
  intro fuel
  induction fuel with
  | zero =>
    intro node start e s l r hf
    exact absurd hf (by omega)
  | succ fuel ih =>
    intro node start e s l r hf hn hse hwf
    by_cases h1 : (start : Int) > r ∨ (e : Int) < l
    · have hres : queryRangeAux (fuel + 1) s node start e l r = (0, s) := by
        simp only [queryRangeAux]
        rw [if_pos h1]
      rw [hres]
      refine ⟨?_, hwf, fun i => rfl, fun m hm => ⟨rfl, rfl⟩, rfl⟩
      rw [Finset.filter_false_of_mem, Finset.sum_empty]
      intro i hi
      simp only [Finset.mem_Icc] at hi
      push_neg
      intro hl
      rcases h1 with h | h <;> omega
    · by_cases h2 : (start : Int) ≥ l ∧ (e : Int) ≤ r
      · have hres : queryRangeAux (fuel + 1) s node start e l r =
            ((updateLazy s node start e).tree node, updateLazy s node start e) := by
          simp only [queryRangeAux]
          rw [if_neg h1, if_pos h2]
        rw [hres]
        refine ⟨?_, updateLazy_WFa hn hse hwf, updateLazy_elemAt hn hse,
          updateLazy_agree_out hn, updateLazy_n _ _ _ _⟩
        rw [updateLazy_tree_denSum hn hse hwf, denSum_eq_sum _ _ _ hse,
          Finset.filter_true_of_mem]
        intro i hi
        simp only [Finset.mem_Icc] at hi
        exact ⟨by omega, by omega⟩
      · have hlt : start < e := by
          push_neg at h1
          rcases le_or_lt (l : Int) (start : Int) with hsl | hsl
          · have hr : ¬ ((e : Int) ≤ r) := fun hh => h2 ⟨hsl, hh⟩
            omega
          · omega
        have hm1 : start ≤ (start + e) / 2 := by omega
        have hm2 : (start + e) / 2 < e := by omega
        have hwf1 : WFa (updateLazy s node start e) node start e := updateLazy_WFa hn hse hwf
        have hwf1c := (WFa_node hlt).1 hwf1
        have hwfN := (WFa_node hlt).1 hwf
        have ihl := ih (2 * node) start ((start + e) / 2) (updateLazy s node start e) l r
          (by omega) (by omega) hm1 hwf1c.2.1
        set s1 := updateLazy s node start e with hs1
        set p1 := (queryRangeAux fuel s1 (2 * node) start ((start + e) / 2) l r).1 with hp1
        set s2 := (queryRangeAux fuel s1 (2 * node) start ((start + e) / 2) l r).2 with hs2
        have hagr12 : AgreeOn s1 s2 (2 * node + 1) := by
          intro m hm
          have hx := ihl.2.2.2.1 m (fun hx => inSub_sibling_disj hn hx hm)
          exact ⟨hx.1.symm, hx.2.symm⟩
        have hwf2r : WFa s2 (2 * node + 1) ((start + e) / 2 + 1) e :=
          WFa_congr _ _ _ hagr12 hwf1c.2.2
        have ihr := ih (2 * node + 1) ((start + e) / 2 + 1) e s2 l r
          (by omega) (by omega) (by omega) hwf2r
        set p2 := (queryRangeAux fuel s2 (2 * node + 1) ((start + e) / 2 + 1) e l r).1 with hp2
        set s3 := (queryRangeAux fuel s2 (2 * node + 1) ((start + e) / 2 + 1) e l r).2 with hs3
        have hres : queryRangeAux (fuel + 1) s node start e l r = (p1 + p2, s3) := by
          simp only [queryRangeAux]
          rw [if_neg h1, if_neg h2]
        rw [hres]
        have hag32 : AgreeOn s3 s2 (2 * node) := by
          intro m hm
          exact ihr.2.2.2.1 m (fun hx => inSub_sibling_disj hn hm hx)
        have hag23 : AgreeOn s2 s3 (2 * node) := fun m hm =>
          ⟨(hag32 m hm).1.symm, (hag32 m hm).2.symm⟩
        refine ⟨?_, ?_, ?_, ?_, ?_⟩
        · -- returned value
          have e1 : ∀ i ∈ (Finset.Icc start ((start + e) / 2)).filter
              (fun i : Nat => l ≤ (i : Int) ∧ (i : Int) ≤ r),
              elemAt s1 (2 * node) start ((start + e) / 2) i = elemAt s node start e i := by
            intro i hi
            rw [Finset.mem_filter, Finset.mem_Icc] at hi
            rw [hs1, updateLazy_shift_left hn hlt, elemAt_node hlt, if_pos (by omega)]
            ring
          have e2 : ∀ i ∈ (Finset.Icc ((start + e) / 2 + 1) e).filter
              (fun i : Nat => l ≤ (i : Int) ∧ (i : Int) ≤ r),
              elemAt s2 (2 * node + 1) ((start + e) / 2 + 1) e i = elemAt s node start e i := by
            intro i hi
            rw [Finset.mem_filter, Finset.mem_Icc] at hi
            rw [← elemAt_congr _ _ _ hagr12 i, hs1, updateLazy_shift_right hn hlt,
              elemAt_node hlt, if_neg (by omega)]
            ring
          rw [ihl.1, ihr.1, sum_filter_Icc_split hm1 hm2, Finset.sum_congr rfl e1,
            Finset.sum_congr rfl e2]
        · -- invariant on the result state
          rw [WFa_node hlt]
          refine ⟨?_, WFa_congr _ _ _ hag23 ihl.2.1, ihr.2.1⟩
          have ht3 : s3.tree node = s1.tree node := by
            rw [(ihr.2.2.2.1 node (not_inSub_of_lt (by omega))).1,
              (ihl.2.2.2.1 node (not_inSub_of_lt (by omega))).1]
          have hd3l : denSum s3 (2 * node) start ((start + e) / 2) =
              denSum s1 (2 * node) start ((start + e) / 2) := by
            rw [denSum_congr _ _ _ hag32, denSum_eq_sum _ _ _ hm1, denSum_eq_sum _ _ _ hm1]
            exact Finset.sum_congr rfl (fun i _ => ihl.2.2.1 i)
          have hd3r : denSum s3 (2 * node + 1) ((start + e) / 2 + 1) e =
              denSum s1 (2 * node + 1) ((start + e) / 2 + 1) e := by
            rw [denSum_eq_sum _ _ _ (by omega), denSum_eq_sum _ _ _ (by omega)]
            refine Finset.sum_congr rfl (fun i _ => ?_)
            rw [ihr.2.2.1 i, elemAt_congr _ _ _ hagr12 i]
          rw [ht3, hd3l, hd3r, hs1, updateLazy_tree_node,
            updateLazy_denSum_left hn hlt start ((start + e) / 2) hm1,
            updateLazy_denSum_right hn hlt ((start + e) / 2 + 1) e (by omega), hwfN.1]
          have hlen : ((((start + e) / 2 : Nat)) : Int) - (start : Int) + 1 +
              ((e : Int) - ((((start + e) / 2 + 1 : Nat)) : Int) + 1) =
              (e : Int) - (start : Int) + 1 := by
            push_cast
            omega
          linear_combination (-(s.lazy node)) * hlen
        · -- denotation preserved
          intro i
          have hlz3 : s3.lazy node = 0 := by
            rw [(ihr.2.2.2.1 node (not_inSub_of_lt (by omega))).2,
              (ihl.2.2.2.1 node (not_inSub_of_lt (by omega))).2, hs1, updateLazy_lazy_node]
          rw [elemAt_node hlt, elemAt_node hlt, hlz3]
          split
          · rw [elemAt_congr _ _ _ hag32 i, ihl.2.2.1 i, hs1, updateLazy_shift_left hn hlt]
            ring
          · rw [ihr.2.2.1 i, ← elemAt_congr _ _ _ hagr12 i, hs1,
              updateLazy_shift_right hn hlt]
            ring
        · -- frame outside the subtree
          intro m hm
          have hmL : ¬ inSub (2 * node) m := fun hx => hm (inSub_trans hx (inSub_left node))
          have hmR : ¬ inSub (2 * node + 1) m := fun hx => hm (inSub_trans hx (inSub_right node))
          have f3 := ihr.2.2.2.1 m hmR
          have f2 := ihl.2.2.2.1 m hmL
          have f1 := @updateLazy_agree_out s node start e hn m hm
          rw [hs1] at f2
          exact ⟨by rw [f3.1, f2.1, f1.1], by rw [f3.2, f2.2, f1.2]⟩
        · rw [ihr.2.2.2.2, ihl.2.2.2.2, hs1, updateLazy_n]

/-! ### `updateRange` master lemma: adds `val` exactly on `[l,r]` -/

theorem updateRangeAux_spec :
    ∀ fuel node start e s l r val, e - start < fuel → 1 ≤ node → start ≤ e →
      WFa s node start e →
      WFa (updateRangeAux fuel s node start e l r val) node start e ∧
        (∀ i, start ≤ i → i ≤ e →
          elemAt (updateRangeAux fuel s node start e l r val) node start e i =
            elemAt s node start e i + (if l ≤ (i : Int) ∧ (i : Int) ≤ r then val else 0)) ∧
        (∀ m, ¬ inSub node m →
          (updateRangeAux fuel s node start e l r val).tree m = s.tree m ∧
            (updateRangeAux fuel s node start e l r val).lazy m = s.lazy m) ∧
        (updateRangeAux fuel s node start e l r val).n = s.n := by
  intro fuel
  induction fuel with
  | zero =>
    intro node start e s l r val hf
    exact absurd hf (by omega)
  | succ fuel ih =>
    intro node start e s l r val hf hn hse hwf
    by_cases h1 : (start : Int) > r ∨ (e : Int) < l
    · have hres : updateRangeAux (fuel + 1) s node start e l r val =
          updateLazy s node start e := by
        simp only [updateRangeAux]
        rw [if_pos h1]
      rw [hres]
      refine ⟨updateLazy_WFa hn hse hwf, ?_, updateLazy_agree_out hn, updateLazy_n _ _ _ _⟩
      intro i hi1 hi2
      rw [updateLazy_elemAt hn hse, if_neg]
      · ring
      · push_neg
        intro hl
        rcases h1 with h | h <;> omega
    · by_cases h2 : (start : Int) ≥ l ∧ (e : Int) ≤ r
      · set s1 := updateLazy s node start e with hs1
        set sva : AST := { s1 with lazy := upd s1.lazy node (s1.lazy node + val) } with hsva
        have hres : updateRangeAux (fuel + 1) s node start e l r val =
            updateLazy sva node start e := by
          simp only [updateRangeAux]
          rw [if_neg h1, if_pos h2]
        rw [hres]
        have hwf1 : WFa s1 node start e := updateLazy_WFa hn hse hwf
        have hshift_t : ∀ m, inSub node m → sva.tree m = s1.tree m := fun m _ => rfl
        have hshift_l : ∀ m, inSub node m → m ≠ node → sva.lazy m = s1.lazy m :=
          fun m _ hm => upd_other _ _ hm
        have hshift_d : sva.lazy node = s1.lazy node + val := upd_same _ _ _
        have hwfva : WFa sva node start e := WFa_shift hn hshift_t hshift_l _ _ hwf1
        refine ⟨updateLazy_WFa hn hse hwfva, ?_, ?_, ?_⟩
        · intro i hi1 hi2
          rw [updateLazy_elemAt hn hse, elemAt_shift hn hshift_t hshift_l hshift_d,
            hs1, updateLazy_elemAt hn hse, if_pos ⟨by omega, by omega⟩]
        · intro m hm
          have hva := @updateLazy_agree_out sva node start e hn m hm
          have h1' := @updateLazy_agree_out s node start e hn m hm
          have hmn : m ≠ node := fun h => hm (h ▸ inSub_refl node)
          refine ⟨by rw [hva.1]; exact h1'.1, ?_⟩
          rw [hva.2]
          show upd s1.lazy node (s1.lazy node + val) m = s.lazy m
          rw [upd_other _ _ hmn]
          exact h1'.2
        · rw [updateLazy_n]
          show s1.n = s.n
          rw [hs1, updateLazy_n]
      · have hlt : start < e := by
          push_neg at h1
          rcases le_or_lt (l : Int) (start : Int) with hsl | hsl
          · have hr : ¬ ((e : Int) ≤ r) := fun hh => h2 ⟨hsl, hh⟩
            omega
          · omega
        have hm1 : start ≤ (start + e) / 2 := by omega
        have hm2 : (start + e) / 2 < e := by omega
        have hwf1 : WFa (updateLazy s node start e) node start e := updateLazy_WFa hn hse hwf
        have hwf1c := (WFa_node hlt).1 hwf1
        have ihl := ih (2 * node) start ((start + e) / 2) (updateLazy s node start e) l r val
          (by omega) (by omega) hm1 hwf1c.2.1
        set s1 := updateLazy s node start e with hs1
        set sL := updateRangeAux fuel s1 (2 * node) start ((start + e) / 2) l r val with hsL
        have hagr12 : AgreeOn s1 sL (2 * node + 1) := by
          intro m hm
          have hx := ihl.2.2.1 m (fun hx => inSub_sibling_disj hn hx hm)
          exact ⟨hx.1.symm, hx.2.symm⟩
        have hwfLr : WFa sL (2 * node + 1) ((start + e) / 2 + 1) e :=
          WFa_congr _ _ _ hagr12 hwf1c.2.2
        have ihr := ih (2 * node + 1) ((start + e) / 2 + 1) e sL l r val
          (by omega) (by omega) (by omega) hwfLr
        set sR := updateRangeAux fuel sL (2 * node + 1) ((start + e) / 2 + 1) e l r val with hsR
        set s4 := updateLazy sR (2 * node) start ((start + e) / 2) with hs4
        set s5 := updateLazy s4 (2 * node + 1) ((start + e) / 2 + 1) e with hs5
        have hres : updateRangeAux (fuel + 1) s node start e l r val =
            { s5 with tree := upd s5.tree node (s5.tree (2 * node) + s5.tree (2 * node + 1)) } := by
          simp only [updateRangeAux]
          rw [if_neg h1, if_neg h2]
        set s6 : AST :=
          { s5 with tree := upd s5.tree node (s5.tree (2 * node) + s5.tree (2 * node + 1)) }
          with hs6
        rw [hres]
        -- frames between the intermediate states, restricted to each child subtree
        have hagRL : AgreeOn sR sL (2 * node) := by
          intro m hm
          exact ihr.2.2.1 m (fun hx => inSub_sibling_disj hn hm hx)
        have hagLR : AgreeOn sL sR (2 * node) := fun m hm =>
          ⟨(hagRL m hm).1.symm, (hagRL m hm).2.symm⟩
        have hag45 : AgreeOn s4 s5 (2 * node) := by
          intro m hm
          have hx := @updateLazy_agree_out s4 (2 * node + 1) ((start + e) / 2 + 1) e
            (by omega) m (fun hc => inSub_sibling_disj hn hm hc)
          exact ⟨hx.1.symm, hx.2.symm⟩
        have hag54 : AgreeOn s5 s4 (2 * node) := fun m hm =>
          ⟨(hag45 m hm).1.symm, (hag45 m hm).2.symm⟩
        have hagR4 : AgreeOn sR s4 (2 * node + 1) := by
          intro m hm
          have hx := @updateLazy_agree_out sR (2 * node) start ((start + e) / 2)
            (by omega) m (fun hc => inSub_sibling_disj hn hc hm)
          exact ⟨hx.1.symm, hx.2.symm⟩
        have hag6 : AgreeOn s5 s6 (2 * node) := by
          intro m hm
          have hmn : m ≠ node := by
            have := inSub_le hm
            omega
          exact ⟨(upd_other _ _ hmn).symm, rfl⟩
        have hag6r : AgreeOn s5 s6 (2 * node + 1) := by
          intro m hm
          have hmn : m ≠ node := by
            have := inSub_le hm
            omega
          exact ⟨(upd_other _ _ hmn).symm, rfl⟩
        have hwfR_l : WFa sR (2 * node) start ((start + e) / 2) :=
          WFa_congr _ _ _ hagLR ihl.1
        have hwf4_l : WFa s4 (2 * node) start ((start + e) / 2) :=
          updateLazy_WFa (by omega) hm1 hwfR_l
        have hwf4_r : WFa s4 (2 * node + 1) ((start + e) / 2 + 1) e :=
          WFa_congr _ _ _ hagR4 ihr.1
        have hwf5_r : WFa s5 (2 * node + 1) ((start + e) / 2 + 1) e :=
          updateLazy_WFa (by omega) (by omega) hwf4_r
        have hwf5_l : WFa s5 (2 * node) start ((start + e) / 2) :=
          WFa_congr _ _ _ hag45 hwf4_l
        refine ⟨?_, ?_, ?_, ?_⟩
        · -- invariant
          rw [WFa_node hlt]
          refine ⟨?_, WFa_congr _ _ _ hag6 hwf5_l, WFa_congr _ _ _ hag6r hwf5_r⟩
          have htn : s6.tree node = s5.tree (2 * node) + s5.tree (2 * node + 1) :=
            upd_same _ _ _
          rw [htn, ← denSum_congr _ _ _ hag6, ← denSum_congr _ _ _ hag6r]
          have h5l : s5.tree (2 * node) = s4.tree (2 * node) :=
            updateLazy_tree_frame (by omega)
          have h4l : s4.tree (2 * node) = denSum sR (2 * node) start ((start + e) / 2) :=
            updateLazy_tree_denSum (by omega) hm1 hwfR_l
          have h5r : s5.tree (2 * node + 1) = denSum s4 (2 * node + 1) ((start + e) / 2 + 1) e :=
            updateLazy_tree_denSum (by omega) (by omega) hwf4_r
          have hd5l : denSum s5 (2 * node) start ((start + e) / 2) =
              denSum sR (2 * node) start ((start + e) / 2) := by
            rw [← denSum_congr _ _ _ hag45, hs4, updateLazy_denSum (by omega) hm1]
          have hd5r : denSum s5 (2 * node + 1) ((start + e) / 2 + 1) e =
              denSum s4 (2 * node + 1) ((start + e) / 2 + 1) e := by
            rw [hs5, updateLazy_denSum (by omega) (by omega)]
          rw [h5l, h4l, h5r, hd5l, hd5r]
        · -- element effect
          intro i hi1 hi2
          have hlz6 : s6.lazy node = 0 := by
            show s5.lazy node = 0
            rw [hs5, updateLazy_lazy_frame (by omega) (by omega) (by omega),
              hs4, updateLazy_lazy_frame (by omega) (by omega) (by omega),
              (ihr.2.2.1 node (not_inSub_of_lt (by omega))).2,
              (ihl.2.2.1 node (not_inSub_of_lt (by omega))).2, hs1, updateLazy_lazy_node]
          rw [elemAt_node hlt, elemAt_node hlt, hlz6]
          by_cases hil : i ≤ (start + e) / 2
          · rw [if_pos hil, if_pos hil, ← elemAt_congr _ _ _ hag6 i,
              ← elemAt_congr _ _ _ hag45 i, hs4, updateLazy_elemAt (by omega) hm1,
              ← elemAt_congr _ _ _ hagLR i, ihl.2.1 i hi1 hil, hs1,
              updateLazy_shift_left hn hlt]
            ring
          · rw [if_neg hil, if_neg hil, ← elemAt_congr _ _ _ hag6r i,
              hs5, updateLazy_elemAt (by omega) (by omega),
              ← elemAt_congr _ _ _ hagR4 i, ihr.2.1 i (by omega) hi2,
              ← elemAt_congr _ _ _ hagr12 i, hs1, updateLazy_shift_right hn hlt]
            ring
        · -- frame
          intro m hm
          have hmL : ¬ inSub (2 * node) m := fun hx => hm (inSub_trans hx (inSub_left node))
          have hmR : ¬ inSub (2 * node + 1) m := fun hx => hm (inSub_trans hx (inSub_right node))
          have hmn : m ≠ node := fun h => hm (h ▸ inSub_refl node)
          have f1 := @updateLazy_agree_out s node start e hn m hm
          have f2 := ihl.2.2.1 m hmL
          have f3 := ihr.2.2.1 m hmR
          have f4 := @updateLazy_agree_out sR (2 * node) start ((start + e) / 2) (by omega) m hmL
          have f5 := @updateLazy_agree_out s4 (2 * node + 1) ((start + e) / 2 + 1) e
            (by omega) m hmR
          constructor
          · show upd s5.tree node (s5.tree (2 * node) + s5.tree (2 * node + 1)) m = s.tree m
            rw [upd_other _ _ hmn, hs5] at *
            rw [f5.1, f4.1, f3.1, f2.1, f1.1]
          · show s5.lazy m = s.lazy m
            rw [f5.2, f4.2, f3.2, f2.2, f1.2]
        · show s5.n = s.n
          rw [hs5, updateLazy_n, hs4, updateLazy_n, ihr.2.2.2, ihl.2.2.2, hs1, updateLazy_n]

/-! ### `updatePoint` and `queryMin` -/

theorem target_mem : ∀ start e : Nat, ∀ idx : Int, start ≤ e →
    start ≤ target start e idx ∧ target start e idx ≤ e := by
  suffices H : ∀ d start e idx, e - start ≤ d → start ≤ e →
      start ≤ target start e idx ∧ target start e idx ≤ e by
    exact fun start e idx hse => H (e - start) start e idx le_rfl hse
  intro d
  induction d with
  | zero =>
    intro start e idx hd hse
    rw [target_leaf (by omega)]
    omega
  | succ d ih =>
    intro start e idx hd hse
    by_cases hle : e ≤ start
    · rw [target_leaf hle]
      omega
    · have hlt : start < e := by omega
      rw [target_node hlt]
      split
      · have := ih start ((start + e) / 2) idx (by omega) (by omega)
        omega
      · have := ih ((start + e) / 2 + 1) e idx (by omega) (by omega)
        omega

/-- For an in-range index the point-update descent lands exactly on it. -/
theorem target_eq : ∀ start e : Nat, ∀ idx : Int, (start : Int) ≤ idx → idx ≤ (e : Int) →
    (target start e idx : Int) = idx := by
  suffices H : ∀ (d : Nat) (start e : Nat) (idx : Int), e - start ≤ d → (start : Int) ≤ idx →
      idx ≤ (e : Int) → (target start e idx : Int) = idx by
    exact fun start e idx h1 h2 => H (e - start) start e idx le_rfl h1 h2
  intro d
  induction d with
  | zero =>
    intro start e idx hd h1 h2
    have hle : e ≤ start := by omega
    rw [target_leaf hle]
    omega
  | succ d ih =>
    intro start e idx hd h1 h2
    by_cases hle : e ≤ start
    · rw [target_leaf hle]
      omega
    · have hlt : start < e := by omega
      rw [target_node hlt]
      split
      next hil => exact ih start ((start + e) / 2) idx (by omega) h1 hil
      next hil => exact ih ((start + e) / 2 + 1) e idx (by omega) (by omega) h2

theorem minSpec_congr {f g : Nat → Int} :
    ∀ start e : Nat, ∀ l r : Int, (∀ i, start ≤ i → i ≤ e → f i = g i) →
      minSpec f start e l r = minSpec g start e l r := by
  suffices H : ∀ d start e l r, e - start ≤ d → (∀ i, start ≤ i → i ≤ e → f i = g i) →
      minSpec f start e l r = minSpec g start e l r by
    exact fun start e l r hfg => H (e - start) start e l r le_rfl hfg
  intro d
  induction d with
  | zero =>
    intro start e l r hd hfg
    by_cases h1 : (start : Int) > r ∨ (e : Int) < l
    · rw [minSpec_disj h1, minSpec_disj h1]
    · have h2 : (start : Int) ≥ l ∧ (e : Int) ≤ r := by
        push_neg at h1
        constructor <;> omega
      rw [minSpec_cont h1 h2, minSpec_cont h1 h2]
      refine Finset.sum_congr rfl (fun i hi => ?_)
      simp only [Finset.mem_Icc] at hi
      exact hfg i hi.1 hi.2
  | succ d ih =>
    intro start e l r hd hfg
    by_cases h1 : (start : Int) > r ∨ (e : Int) < l
    · rw [minSpec_disj h1, minSpec_disj h1]
    · by_cases h2 : (start : Int) ≥ l ∧ (e : Int) ≤ r
      · rw [minSpec_cont h1 h2, minSpec_cont h1 h2]
        refine Finset.sum_congr rfl (fun i hi => ?_)
        simp only [Finset.mem_Icc] at hi
        exact hfg i hi.1 hi.2
      · have hlt : start < e := by
          push_neg at h1
          rcases le_or_lt (l : Int) (start : Int) with hsl | hsl
          · have hr : ¬ ((e : Int) ≤ r) := fun hh => h2 ⟨hsl, hh⟩
            omega
          · omega
        rw [minSpec_split h1 h2, minSpec_split h1 h2,
          ih start ((start + e) / 2) l r (by omega) (fun i a b => hfg i a (by omega)),
          ih ((start + e) / 2 + 1) e l r (by omega) (fun i a b => hfg i (by omega) b)]

/-- Observation: `queryMin` performs exactly the same state mutation as `queryRange`. -/
theorem queryMin_state_eq :
    ∀ fuel s node start e l r,
      (queryMinAux fuel s node start e l r).2 = (queryRangeAux fuel s node start e l r).2 := by
  intro fuel
  induction fuel with
  | zero => intro s node start e l r; rfl
  | succ fuel ih =>
    intro s node start e l r
    by_cases h1 : (start : Int) > r ∨ (e : Int) < l
    · simp only [queryMinAux, queryRangeAux]
      rw [if_pos h1, if_pos h1]
    · by_cases h2 : (start : Int) ≥ l ∧ (e : Int) ≤ r
      · simp only [queryMinAux, queryRangeAux]
        rw [if_neg h1, if_neg h1, if_pos h2, if_pos h2]
      · simp only [queryMinAux, queryRangeAux]
        rw [if_neg h1, if_neg h1, if_neg h2, if_neg h2]
        show (queryMinAux fuel _ _ _ _ l r).2 = (queryRangeAux fuel _ _ _ _ l r).2
        rw [ih, ih]

/-- The value `queryMin` returns, as a function of the logical elements. -/
theorem queryMinAux_value :
    ∀ fuel node start e s l r, e - start < fuel → 1 ≤ node → start ≤ e → WFa s node start e →
      (queryMinAux fuel s node start e l r).1 =
        minSpec (fun i => elemAt s node start e i) start e l r := by
  intro fuel
  induction fuel with
  | zero =>
    intro node start e s l r hf
    exact absurd hf (by omega)
  | succ fuel ih =>
    intro node start e s l r hf hn hse hwf
    by_cases h1 : (start : Int) > r ∨ (e : Int) < l
    · have hres : (queryMinAux (fuel + 1) s node start e l r).1 = intMax := by
        simp only [queryMinAux]
        rw [if_pos h1]
      rw [hres, minSpec_disj h1]
    · by_cases h2 : (start : Int) ≥ l ∧ (e : Int) ≤ r
      · have hres : (queryMinAux (fuel + 1) s node start e l r).1 =
            (updateLazy s node start e).tree node := by
          simp only [queryMinAux]
          rw [if_neg h1, if_pos h2]
        rw [hres, minSpec_cont h1 h2, updateLazy_tree_denSum hn hse hwf,
          denSum_eq_sum _ _ _ hse]
      · have hlt : start < e := by
          push_neg at h1
          rcases le_or_lt (l : Int) (start : Int) with hsl | hsl
          · have hr : ¬ ((e : Int) ≤ r) := fun hh => h2 ⟨hsl, hh⟩
            omega
          · omega
        have hm1 : start ≤ (start + e) / 2 := by omega
        have hm2 : (start + e) / 2 < e := by omega
        have hwf1 : WFa (updateLazy s node start e) node start e := updateLazy_WFa hn hse hwf
        have hwf1c := (WFa_node hlt).1 hwf1
        set s1 := updateLazy s node start e with hs1
        have ihl := ih (2 * node) start ((start + e) / 2) s1 l r (by omega) (by omega) hm1
          hwf1c.2.1
        -- state after the left recursive call (same as queryRange's)
        have hstL : (queryMinAux fuel s1 (2 * node) start ((start + e) / 2) l r).2 =
            (queryRangeAux fuel s1 (2 * node) start ((start + e) / 2) l r).2 :=
          queryMin_state_eq fuel s1 (2 * node) start ((start + e) / 2) l r
        have hql := queryRangeAux_spec fuel (2 * node) start ((start + e) / 2) s1 l r
          (by omega) (by omega) hm1 hwf1c.2.1
        set s2 := (queryRangeAux fuel s1 (2 * node) start ((start + e) / 2) l r).2 with hs2
        have hagr12 : AgreeOn s1 s2 (2 * node + 1) := by
          intro m hm
          have hx := hql.2.2.2.1 m (fun hx => inSub_sibling_disj hn hx hm)
          exact ⟨hx.1.symm, hx.2.symm⟩
        have hwf2r : WFa s2 (2 * node + 1) ((start + e) / 2 + 1) e :=
          WFa_congr _ _ _ hagr12 hwf1c.2.2
        have ihr := ih (2 * node + 1) ((start + e) / 2 + 1) e s2 l r (by omega) (by omega)
          (by omega) hwf2r
        have hres : (queryMinAux (fuel + 1) s node start e l r).1 =
            min (queryMinAux fuel s1 (2 * node) start ((start + e) / 2) l r).1
              (queryMinAux fuel s2 (2 * node + 1) ((start + e) / 2 + 1) e l r).1 := by
          simp only [queryMinAux]
          rw [if_neg h1, if_neg h2, ← hs1, hstL]
        rw [hres, ihl, ihr, minSpec_split h1 h2]
        have hvL : minSpec (fun i => elemAt s1 (2 * node) start ((start + e) / 2) i)
            start ((start + e) / 2) l r =
            minSpec (fun i => elemAt s node start e i) start ((start + e) / 2) l r := by
          refine minSpec_congr _ _ _ _ (fun i a b => ?_)
          rw [hs1, updateLazy_shift_left hn hlt, elemAt_node hlt, if_pos (by omega)]
          ring
        have hvR : minSpec (fun i => elemAt s2 (2 * node + 1) ((start + e) / 2 + 1) e i)
            ((start + e) / 2 + 1) e l r =
            minSpec (fun i => elemAt s node start e i) ((start + e) / 2 + 1) e l r := by
          refine minSpec_congr _ _ _ _ (fun i a b => ?_)
          rw [← elemAt_congr _ _ _ hagr12 i, hs1, updateLazy_shift_right hn hlt,
            elemAt_node hlt, if_neg (by omega)]
          ring
        rw [hvL, hvR]

theorem updatePointAux_spec :
    ∀ fuel node start e s idx val, e - start < fuel → 1 ≤ node → start ≤ e →
      WFa s node start e →
      WFa (updatePointAux fuel s node start e idx val) node start e ∧
        (∀ i, start ≤ i → i ≤ e →
          elemAt (updatePointAux fuel s node start e idx val) node start e i =
            if i = target start e idx then val else elemAt s node start e i) ∧
        (∀ m, ¬ inSub node m →
          (updatePointAux fuel s node start e idx val).tree m = s.tree m ∧
            (updatePointAux fuel s node start e idx val).lazy m = s.lazy m) ∧
        (updatePointAux fuel s node start e idx val).n = s.n := by
  intro fuel
  induction fuel with
  | zero =>
    intro node start e s idx val hf
    exact absurd hf (by omega)
  | succ fuel ih =>
    intro node start e s idx val hf hn hse hwf
    by_cases hleaf : start = e
    · set s1 := updateLazy s node start e with hs1
      have hres : updatePointAux (fuel + 1) s node start e idx val =
          { s1 with tree := upd s1.tree node val } := by
        simp only [updatePointAux]
        rw [← hs1, if_pos hleaf]
      rw [hres]
      refine ⟨WFa_leaf (by omega), ?_, ?_, ?_⟩
      · intro i hi1 hi2
        have hie : i = start := by omega
        rw [elemAt_leaf (by omega), if_pos (by rw [hie, target_leaf (by omega)])]
        show upd s1.tree node val node + s1.lazy node = val
        rw [upd_same, hs1, updateLazy_lazy_node]
        ring
      · intro m hm
        have hmn : m ≠ node := fun h => hm (h ▸ inSub_refl node)
        have f1 := @updateLazy_agree_out s node start e hn m hm
        constructor
        · show upd s1.tree node val m = s.tree m
          rw [upd_other _ _ hmn, hs1]
          exact f1.1
        · show s1.lazy m = s.lazy m
          rw [hs1]
          exact f1.2
      · show s1.n = s.n
        rw [hs1, updateLazy_n]
    · have hlt : start < e := by omega
      have hm1 : start ≤ (start + e) / 2 := by omega
      have hm2 : (start + e) / 2 < e := by omega
      have hwf1 : WFa (updateLazy s node start e) node start e := updateLazy_WFa hn hse hwf
      have hwf1c := (WFa_node hlt).1 hwf1
      set s1 := updateLazy s node start e with hs1
      by_cases hil : idx ≤ (((start + e) / 2 : Nat) : Int)
      · -- descend into the left child
        have ihc := ih (2 * node) start ((start + e) / 2) s1 idx val (by omega) (by omega)
          hm1 hwf1c.2.1
        set sC := updatePointAux fuel s1 (2 * node) start ((start + e) / 2) idx val with hsC
        set s4 := updateLazy sC (2 * node) start ((start + e) / 2) with hs4
        set s5 := updateLazy s4 (2 * node + 1) ((start + e) / 2 + 1) e with hs5
        set s6 : AST :=
          { s5 with tree := upd s5.tree node (s5.tree (2 * node) + s5.tree (2 * node + 1)) }
          with hs6
        have hres : updatePointAux (fuel + 1) s node start e idx val = s6 := by
          simp only [updatePointAux]
          rw [← hs1, if_neg hleaf, if_pos hil, ← hsC, ← hs4, ← hs5, ← hs6]
        rw [hres]
        have htv : target start e idx = target start ((start + e) / 2) idx := by
          rw [target_node hlt, if_pos hil]
        have htm := target_mem start ((start + e) / 2) idx hm1
        have hagr : AgreeOn s1 sC (2 * node + 1) := by
          intro m hm
          have hx := ihc.2.2.1 m (fun hx => inSub_sibling_disj hn hx hm)
          exact ⟨hx.1.symm, hx.2.symm⟩
        have hwfCr : WFa sC (2 * node + 1) ((start + e) / 2 + 1) e :=
          WFa_congr _ _ _ hagr hwf1c.2.2
        have hagC4r : AgreeOn sC s4 (2 * node + 1) := by
          intro m hm
          have hx := @updateLazy_agree_out sC (2 * node) start ((start + e) / 2)
            (by omega) m (fun hc => inSub_sibling_disj hn hc hm)
          exact ⟨hx.1.symm, hx.2.symm⟩
        have hag45 : AgreeOn s4 s5 (2 * node) := by
          intro m hm
          have hx := @updateLazy_agree_out s4 (2 * node + 1) ((start + e) / 2 + 1) e
            (by omega) m (fun hc => inSub_sibling_disj hn hm hc)
          exact ⟨hx.1.symm, hx.2.symm⟩
        have hag54 : AgreeOn s5 s4 (2 * node) := fun m hm =>
          ⟨(hag45 m hm).1.symm, (hag45 m hm).2.symm⟩
        have hag6 : AgreeOn s5 s6 (2 * node) := by
          intro m hm
          have hmn : m ≠ node := by
            have := inSub_le hm
            omega
          exact ⟨(upd_other _ _ hmn).symm, rfl⟩
        have hag6r : AgreeOn s5 s6 (2 * node + 1) := by
          intro m hm
          have hmn : m ≠ node := by
            have := inSub_le hm
            omega
          exact ⟨(upd_other _ _ hmn).symm, rfl⟩
        have hwf4_l : WFa s4 (2 * node) start ((start + e) / 2) :=
          updateLazy_WFa (by omega) hm1 ihc.1
        have hwf4_r : WFa s4 (2 * node + 1) ((start + e) / 2 + 1) e :=
          WFa_congr _ _ _ hagC4r hwfCr
        have hwf5_r : WFa s5 (2 * node + 1) ((start + e) / 2 + 1) e :=
          updateLazy_WFa (by omega) (by omega) hwf4_r
        have hwf5_l : WFa s5 (2 * node) start ((start + e) / 2) :=
          WFa_congr _ _ _ hag45 hwf4_l
        refine ⟨?_, ?_, ?_, ?_⟩
        · rw [WFa_node hlt]
          refine ⟨?_, WFa_congr _ _ _ hag6 hwf5_l, WFa_congr _ _ _ hag6r hwf5_r⟩
          have htn : s6.tree node = s5.tree (2 * node) + s5.tree (2 * node + 1) :=
            upd_same _ _ _
          rw [htn, ← denSum_congr _ _ _ hag6, ← denSum_congr _ _ _ hag6r]
          have h5l : s5.tree (2 * node) = s4.tree (2 * node) :=
            updateLazy_tree_frame (by omega)
          have h4l : s4.tree (2 * node) = denSum sC (2 * node) start ((start + e) / 2) :=
            updateLazy_tree_denSum (by omega) hm1 ihc.1
          have h5r : s5.tree (2 * node + 1) = denSum s4 (2 * node + 1) ((start + e) / 2 + 1) e :=
            updateLazy_tree_denSum (by omega) (by omega) hwf4_r
          have hd5l : denSum s5 (2 * node) start ((start + e) / 2) =
              denSum sC (2 * node) start ((start + e) / 2) := by
            rw [← denSum_congr _ _ _ hag45, hs4, updateLazy_denSum (by omega) hm1]
          have hd5r : denSum s5 (2 * node + 1) ((start + e) / 2 + 1) e =
              denSum s4 (2 * node + 1) ((start + e) / 2 + 1) e := by
            rw [hs5, updateLazy_denSum (by omega) (by omega)]
          rw [h5l, h4l, h5r, hd5l, hd5r]
        · intro i hi1 hi2
          have hlz6 : s6.lazy node = 0 := by
            show s5.lazy node = 0
            rw [hs5, updateLazy_lazy_frame (by omega) (by omega) (by omega),
              hs4, updateLazy_lazy_frame (by omega) (by omega) (by omega),
              (ihc.2.2.1 node (not_inSub_of_lt (by omega))).2, hs1, updateLazy_lazy_node]
          by_cases hit : i = target start e idx
          · have hitm : i = target start ((start + e) / 2) idx := by rw [hit, htv]
            have hiM : i ≤ (start + e) / 2 := by omega
            rw [if_pos hit, elemAt_node hlt, hlz6, if_pos hiM,
              ← elemAt_congr _ _ _ hag6 i, ← elemAt_congr _ _ _ hag45 i, hs4,
              updateLazy_elemAt (by omega) hm1, ihc.2.1 i hi1 hiM, if_pos hitm]
            ring
          · rw [if_neg hit]
            rw [elemAt_node hlt, elemAt_node hlt, hlz6]
            by_cases hiM : i ≤ (start + e) / 2
            · have hitm : ¬ (i = target start ((start + e) / 2) idx) := by
                rw [← htv]
                exact hit
              rw [if_pos hiM, if_pos hiM, ← elemAt_congr _ _ _ hag6 i,
                ← elemAt_congr _ _ _ hag45 i, hs4, updateLazy_elemAt (by omega) hm1,
                ihc.2.1 i hi1 hiM, if_neg hitm, hs1, updateLazy_shift_left hn hlt]
              ring
            · rw [if_neg hiM, if_neg hiM, ← elemAt_congr _ _ _ hag6r i, hs5,
                updateLazy_elemAt (by omega) (by omega), ← elemAt_congr _ _ _ hagC4r i,
                ← elemAt_congr _ _ _ hagr i, hs1, updateLazy_shift_right hn hlt]
              ring
        · intro m hm
          have hmL : ¬ inSub (2 * node) m := fun hx => hm (inSub_trans hx (inSub_left node))
          have hmR : ¬ inSub (2 * node + 1) m := fun hx => hm (inSub_trans hx (inSub_right node))
          have hmn : m ≠ node := fun h => hm (h ▸ inSub_refl node)
          have f1 := @updateLazy_agree_out s node start e hn m hm
          have f2 := ihc.2.2.1 m hmL
          have f4 := @updateLazy_agree_out sC (2 * node) start ((start + e) / 2) (by omega) m hmL
          have f5 := @updateLazy_agree_out s4 (2 * node + 1) ((start + e) / 2 + 1) e
            (by omega) m hmR
          constructor
          · show upd s5.tree node (s5.tree (2 * node) + s5.tree (2 * node + 1)) m = s.tree m
            rw [upd_other _ _ hmn, hs5] at *
            rw [f5.1, f4.1, f2.1, f1.1]
          · show s5.lazy m = s.lazy m
            rw [f5.2, f4.2, f2.2, f1.2]
        · show s5.n = s.n
          rw [hs5, updateLazy_n, hs4, updateLazy_n, ihc.2.2.2, hs1, updateLazy_n]
      · -- descend into the right child
        have ihc := ih (2 * node + 1) ((start + e) / 2 + 1) e s1 idx val (by omega) (by omega)
          (by omega) hwf1c.2.2
        set sC := updatePointAux fuel s1 (2 * node + 1) ((start + e) / 2 + 1) e idx val with hsC
        set s4 := updateLazy sC (2 * node) start ((start + e) / 2) with hs4
        set s5 := updateLazy s4 (2 * node + 1) ((start + e) / 2 + 1) e with hs5
        set s6 : AST :=
          { s5 with tree := upd s5.tree node (s5.tree (2 * node) + s5.tree (2 * node + 1)) }
          with hs6
        have hres : updatePointAux (fuel + 1) s node start e idx val = s6 := by
          simp only [updatePointAux]
          rw [← hs1, if_neg hleaf, if_neg hil, ← hsC, ← hs4, ← hs5, ← hs6]
        rw [hres]
        have htv : target start e idx = target ((start + e) / 2 + 1) e idx := by
          rw [target_node hlt, if_neg hil]
        have htm := target_mem ((start + e) / 2 + 1) e idx (by omega)
        have hagl : AgreeOn s1 sC (2 * node) := by
          intro m hm
          have hx := ihc.2.2.1 m (fun hx => inSub_sibling_disj hn hm hx)
          exact ⟨hx.1.symm, hx.2.symm⟩
        have hwfCl : WFa sC (2 * node) start ((start + e) / 2) :=
          WFa_congr _ _ _ hagl hwf1c.2.1
        have hagC4r : AgreeOn sC s4 (2 * node + 1) := by
          intro m hm
          have hx := @updateLazy_agree_out sC (2 * node) start ((start + e) / 2)
            (by omega) m (fun hc => inSub_sibling_disj hn hc hm)
          exact ⟨hx.1.symm, hx.2.symm⟩
        have hag45 : AgreeOn s4 s5 (2 * node) := by
          intro m hm
          have hx := @updateLazy_agree_out s4 (2 * node + 1) ((start + e) / 2 + 1) e
            (by omega) m (fun hc => inSub_sibling_disj hn hm hc)
          exact ⟨hx.1.symm, hx.2.symm⟩
        have hag6 : AgreeOn s5 s6 (2 * node) := by
          intro m hm
          have hmn : m ≠ node := by
            have := inSub_le hm
            omega
          exact ⟨(upd_other _ _ hmn).symm, rfl⟩
        have hag6r : AgreeOn s5 s6 (2 * node + 1) := by
          intro m hm
          have hmn : m ≠ node := by
            have := inSub_le hm
            omega
          exact ⟨(upd_other _ _ hmn).symm, rfl⟩
        have hwf4_l : WFa s4 (2 * node) start ((start + e) / 2) :=
          updateLazy_WFa (by omega) hm1 hwfCl
        have hwf4_r : WFa s4 (2 * node + 1) ((start + e) / 2 + 1) e :=
          WFa_congr _ _ _ hagC4r ihc.1
        have hwf5_r : WFa s5 (2 * node + 1) ((start + e) / 2 + 1) e :=
          updateLazy_WFa (by omega) (by omega) hwf4_r
        have hwf5_l : WFa s5 (2 * node) start ((start + e) / 2) :=
          WFa_congr _ _ _ hag45 hwf4_l
        refine ⟨?_, ?_, ?_, ?_⟩
        · rw [WFa_node hlt]
          refine ⟨?_, WFa_congr _ _ _ hag6 hwf5_l, WFa_congr _ _ _ hag6r hwf5_r⟩
          have htn : s6.tree node = s5.tree (2 * node) + s5.tree (2 * node + 1) :=
            upd_same _ _ _
          rw [htn, ← denSum_congr _ _ _ hag6, ← denSum_congr _ _ _ hag6r]
          have h5l : s5.tree (2 * node) = s4.tree (2 * node) :=
            updateLazy_tree_frame (by omega)
          have h4l : s4.tree (2 * node) = denSum sC (2 * node) start ((start + e) / 2) :=
            updateLazy_tree_denSum (by omega) hm1 hwfCl
          have h5r : s5.tree (2 * node + 1) = denSum s4 (2 * node + 1) ((start + e) / 2 + 1) e :=
            updateLazy_tree_denSum (by omega) (by omega) hwf4_r
          have hd5l : denSum s5 (2 * node) start ((start + e) / 2) =
              denSum sC (2 * node) start ((start + e) / 2) := by
            rw [← denSum_congr _ _ _ hag45, hs4, updateLazy_denSum (by omega) hm1]
          have hd5r : denSum s5 (2 * node + 1) ((start + e) / 2 + 1) e =
              denSum s4 (2 * node + 1) ((start + e) / 2 + 1) e := by
            rw [hs5, updateLazy_denSum (by omega) (by omega)]
          rw [h5l, h4l, h5r, hd5l, hd5r]
        · intro i hi1 hi2
          have hlz6 : s6.lazy node = 0 := by
            show s5.lazy node = 0
            rw [hs5, updateLazy_lazy_frame (by omega) (by omega) (by omega),
              hs4, updateLazy_lazy_frame (by omega) (by omega) (by omega),
              (ihc.2.2.1 node (not_inSub_of_lt (by omega))).2, hs1, updateLazy_lazy_node]
          by_cases hit : i = target start e idx
          · have hitm : i = target ((start + e) / 2 + 1) e idx := by rw [hit, htv]
            have hiM : ¬ (i ≤ (start + e) / 2) := by omega
            rw [if_pos hit, elemAt_node hlt, hlz6, if_neg hiM,
              ← elemAt_congr _ _ _ hag6r i, hs5, updateLazy_elemAt (by omega) (by omega),
              ← elemAt_congr _ _ _ hagC4r i, ihc.2.1 i (by omega) hi2, if_pos hitm]
            ring
          · rw [if_neg hit]
            rw [elemAt_node hlt, elemAt_node hlt, hlz6]
            by_cases hiM : i ≤ (start + e) / 2
            · rw [if_pos hiM, if_pos hiM, ← elemAt_congr _ _ _ hag6 i,
                ← elemAt_congr _ _ _ hag45 i, hs4, updateLazy_elemAt (by omega) hm1,
                ← elemAt_congr _ _ _ hagl i, hs1, updateLazy_shift_left hn hlt]
              ring
            · have hitm : ¬ (i = target ((start + e) / 2 + 1) e idx) := by
                rw [← htv]
                exact hit
              rw [if_neg hiM, if_neg hiM, ← elemAt_congr _ _ _ hag6r i, hs5,
                updateLazy_elemAt (by omega) (by omega), ← elemAt_congr _ _ _ hagC4r i,
                ihc.2.1 i (by omega) hi2, if_neg hitm, hs1, updateLazy_shift_right hn hlt]
              ring
        · intro m hm
          have hmL : ¬ inSub (2 * node) m := fun hx => hm (inSub_trans hx (inSub_left node))
          have hmR : ¬ inSub (2 * node + 1) m := fun hx => hm (inSub_trans hx (inSub_right node))
          have hmn : m ≠ node := fun h => hm (h ▸ inSub_refl node)
          have f1 := @updateLazy_agree_out s node start e hn m hm
          have f2 := ihc.2.2.1 m hmR
          have f4 := @updateLazy_agree_out sC (2 * node) start ((start + e) / 2) (by omega) m hmL
          have f5 := @updateLazy_agree_out s4 (2 * node + 1) ((start + e) / 2 + 1) e
            (by omega) m hmR
          constructor
          · show upd s5.tree node (s5.tree (2 * node) + s5.tree (2 * node + 1)) m = s.tree m
            rw [upd_other _ _ hmn, hs5] at *
            rw [f5.1, f4.1, f2.1, f1.1]
          · show s5.lazy m = s.lazy m
            rw [f5.2, f4.2, f2.2, f1.2]
        · show s5.n = s.n
          rw [hs5, updateLazy_n, hs4, updateLazy_n, ihc.2.2.2, hs1, updateLazy_n]

/-! ### `build` master lemma -/

theorem buildAux_spec :
    ∀ fuel node start e s arr, e - start < fuel → 1 ≤ node → start ≤ e →
      (∀ m, s.lazy m = 0) →
      WFa (buildAux arr fuel s node start e) node start e ∧
        (∀ i, start ≤ i → i ≤ e →
          elemAt (buildAux arr fuel s node start e) node start e i = arr.getD i 0) ∧
        structOK arr (buildAux arr fuel s node start e).tree node start e ∧
        (∀ m, ¬ inSub node m → (buildAux arr fuel s node start e).tree m = s.tree m) ∧
        (buildAux arr fuel s node start e).lazy = s.lazy ∧
        (buildAux arr fuel s node start e).n = s.n ∧
        (buildAux arr fuel s node start e).tree node =
          denSum (buildAux arr fuel s node start e) node start e := by
  intro fuel
  induction fuel with
  | zero =>
    intro node start e s arr hf
    exact absurd hf (by omega)
  | succ fuel ih =>
    intro node start e s arr hf hn hse hlz
    by_cases hleaf : start = e
    · have hres : buildAux arr (fuel + 1) s node start e =
          { s with tree := upd s.tree node (arr.getD start 0) } := by
        simp only [buildAux]
        rw [if_pos hleaf]
      rw [hres]
      refine ⟨WFa_leaf (by omega), ?_, ?_, ?_, rfl, rfl, ?_⟩
      · intro i hi1 hi2
        have hie : i = start := by omega
        rw [elemAt_leaf (by omega)]
        show upd s.tree node (arr.getD start 0) node + s.lazy node = arr.getD i 0
        rw [upd_same, hlz, hie]
        ring
      · rw [structOK_leaf (by omega)]
        exact upd_same _ _ _
      · intro m hm
        have hmn : m ≠ node := fun h => hm (h ▸ inSub_refl node)
        exact upd_other _ _ hmn
      · rw [denSum_leaf (by omega)]
        show upd s.tree node (arr.getD start 0) node =
          upd s.tree node (arr.getD start 0) node + s.lazy node
        rw [hlz]
        ring
    · have hlt : start < e := by omega
      have hm1 : start ≤ (start + e) / 2 := by omega
      have hm2 : (start + e) / 2 < e := by omega
      have ihl := ih (2 * node) start ((start + e) / 2) s arr (by omega) (by omega) hm1 hlz
      set B1 := buildAux arr fuel s (2 * node) start ((start + e) / 2) with hB1
      have hlz1 : ∀ m, B1.lazy m = 0 := by
        intro m
        rw [ihl.2.2.2.2.1]
        exact hlz m
      have ihr := ih (2 * node + 1) ((start + e) / 2 + 1) e B1 arr (by omega) (by omega)
        (by omega) hlz1
      set B2 := buildAux arr fuel B1 (2 * node + 1) ((start + e) / 2 + 1) e with hB2
      set B : AST :=
        { B2 with tree := upd B2.tree node (B2.tree (2 * node) + B2.tree (2 * node + 1)) }
        with hB
      have hres : buildAux arr (fuel + 1) s node start e = B := by
        simp only [buildAux]
        rw [if_neg hleaf, ← hB1, ← hB2, ← hB]
      rw [hres]
      have hag12 : AgreeOn B1 B2 (2 * node) := by
        intro m hm
        refine ⟨(ihr.2.2.2.1 m (fun hx => inSub_sibling_disj hn hm hx)).symm, ?_⟩
        rw [ihr.2.2.2.2.1]
      have hag2B : AgreeOn B2 B (2 * node) := by
        intro m hm
        have hmn : m ≠ node := by
          have := inSub_le hm
          omega
        exact ⟨(upd_other _ _ hmn).symm, rfl⟩
      have hag2Br : AgreeOn B2 B (2 * node + 1) := by
        intro m hm
        have hmn : m ≠ node := by
          have := inSub_le hm
          omega
        exact ⟨(upd_other _ _ hmn).symm, rfl⟩
      have hag1B : AgreeOn B1 B (2 * node) := by
        intro m hm
        exact ⟨(hag12 m hm).1.trans (hag2B m hm).1, (hag12 m hm).2.trans (hag2B m hm).2⟩
      have hlzB : ∀ m, B.lazy m = 0 := by
        intro m
        show B2.lazy m = 0
        rw [ihr.2.2.2.2.1]
        exact hlz1 m
      have htB : B.tree node = B2.tree (2 * node) + B2.tree (2 * node + 1) := upd_same _ _ _
      have ht2l : B2.tree (2 * node) = B1.tree (2 * node) :=
        ihr.2.2.2.1 (2 * node) (not_inSub_sibling_left (by omega))
      have hdl : denSum B (2 * node) start ((start + e) / 2) =
          denSum B1 (2 * node) start ((start + e) / 2) :=
        (denSum_congr _ _ _ hag1B).symm
      have hdr : denSum B (2 * node + 1) ((start + e) / 2 + 1) e =
          denSum B2 (2 * node + 1) ((start + e) / 2 + 1) e :=
        (denSum_congr _ _ _ hag2Br).symm
      have htreeB : B.tree node =
          denSum B (2 * node) start ((start + e) / 2) +
            denSum B (2 * node + 1) ((start + e) / 2 + 1) e := by
        rw [htB, hdl, hdr, ht2l, ihl.2.2.2.2.2.2, ihr.2.2.2.2.2.2]
      refine ⟨?_, ?_, ?_, ?_, ?_, ?_, ?_⟩
      · rw [WFa_node hlt]
        exact ⟨htreeB, WFa_congr _ _ _ hag1B ihl.1, WFa_congr _ _ _ hag2Br ihr.1⟩
      · intro i hi1 hi2
        rw [elemAt_node hlt, hlzB]
        by_cases hiM : i ≤ (start + e) / 2
        · rw [if_pos hiM, ← elemAt_congr _ _ _ hag1B i, ihl.2.1 i hi1 hiM]
          ring
        · rw [if_neg hiM, ← elemAt_congr _ _ _ hag2Br i, ihr.2.1 i (by omega) hi2]
          ring
      · rw [structOK_node hlt]
        refine ⟨by rw [htB, (hag2B (2 * node) (inSub_refl _)).1,
          (hag2Br (2 * node + 1) (inSub_refl _)).1], ?_, ?_⟩
        · exact structOK_congr _ _ _ (fun m hm => (hag1B m hm).1) ihl.2.2.1
        · exact structOK_congr _ _ _ (fun m hm => (hag2Br m hm).1) ihr.2.2.1
      · intro m hm
        have hmL : ¬ inSub (2 * node) m := fun hx => hm (inSub_trans hx (inSub_left node))
        have hmR : ¬ inSub (2 * node + 1) m := fun hx => hm (inSub_trans hx (inSub_right node))
        have hmn : m ≠ node := fun h => hm (h ▸ inSub_refl node)
        show upd B2.tree node (B2.tree (2 * node) + B2.tree (2 * node + 1)) m = s.tree m
        rw [upd_other _ _ hmn, ihr.2.2.2.1 m hmR, ihl.2.2.2.1 m hmL]
      · show B2.lazy = s.lazy
        rw [ihr.2.2.2.2.1, ihl.2.2.2.2.1]
      · show B2.n = s.n
        rw [ihr.2.2.2.2.2.1, ihl.2.2.2.2.2.1]
      · rw [denSum_node hlt, hlzB]
        have : B.tree node = denSum B (2 * node) start ((start + e) / 2) +
            denSum B (2 * node + 1) ((start + e) / 2 + 1) e := htreeB
        rw [this]
        ring

/-! ### Public-interface lemmas -/

theorem mkTree_spec (arr : List Int) (h : 1 ≤ arr.length) :
    WFt (mkTree arr) ∧ (mkTree arr).n = arr.length ∧ (∀ m, (mkTree arr).lazy m = 0) ∧
      (∀ i, i ≤ arr.length - 1 → curSeq (mkTree arr) i = arr.getD i 0) ∧
      structOK arr (mkTree arr).tree 1 0 (arr.length - 1) := by
  have hb := buildAux_spec arr.length 1 0 (arr.length - 1)
    { tree := fun _ => 0, lazy := fun _ => 0, n := arr.length } arr (by omega) (by omega)
    (by omega) (fun m => rfl)
  have hmk : mkTree arr = buildAux arr arr.length
      { tree := fun _ => 0, lazy := fun _ => 0, n := arr.length } 1 0 (arr.length - 1) := rfl
  rw [← hmk] at hb
  have hn : (mkTree arr).n = arr.length := hb.2.2.2.2.2.1
  refine ⟨?_, hn, ?_, ?_, hb.2.2.1⟩
  · unfold WFt
    rw [hn]
    exact hb.1
  · intro m
    have := congrFun hb.2.2.2.2.1 m
    exact this
  · intro i hi
    unfold curSeq
    rw [hn]
    exact hb.2.1 i (by omega) hi

theorem querySum_spec (s : AST) (hW : WFt s) (hn : 1 ≤ s.n) (l r : Int) :
    (querySum s l r).1 = clipSum s l r ∧ WFt (querySum s l r).2 ∧
      (querySum s l r).2.n = s.n ∧ (∀ i, curSeq (querySum s l r).2 i = curSeq s i) := by
  have h := queryRangeAux_spec s.n 1 0 (s.n - 1) s l r (by omega) (by omega) (by omega) hW
  have hq : querySum s l r = queryRangeAux s.n s 1 0 (s.n - 1) l r := rfl
  rw [← hq] at h
  have hrn : (querySum s l r).2.n = s.n := h.2.2.2.2
  refine ⟨h.1, ?_, hrn, ?_⟩
  · unfold WFt
    rw [hrn]
    exact h.2.1
  · intro i
    unfold curSeq
    rw [hrn]
    exact h.2.2.1 i

theorem updateRange_spec (s : AST) (hW : WFt s) (hn : 1 ≤ s.n) (l r val : Int) :
    WFt (updateRange s l r val) ∧ (updateRange s l r val).n = s.n ∧
      (∀ i, i ≤ s.n - 1 → curSeq (updateRange s l r val) i =
        curSeq s i + (if l ≤ (i : Int) ∧ (i : Int) ≤ r then val else 0)) := by
  have h := updateRangeAux_spec s.n 1 0 (s.n - 1) s l r val (by omega) (by omega) (by omega) hW
  have hq : updateRange s l r val = updateRangeAux s.n s 1 0 (s.n - 1) l r val := rfl
  rw [← hq] at h
  have hrn : (updateRange s l r val).n = s.n := h.2.2.2
  refine ⟨?_, hrn, ?_⟩
  · unfold WFt
    rw [hrn]
    exact h.1
  · intro i hi
    unfold curSeq
    rw [hrn]
    exact h.2.1 i (by omega) hi

theorem updatePoint_spec (s : AST) (hW : WFt s) (hn : 1 ≤ s.n) (idx val : Int) :
    WFt (updatePoint s idx val) ∧ (updatePoint s idx val).n = s.n ∧
      (∀ i, i ≤ s.n - 1 → curSeq (updatePoint s idx val) i =
        if i = target 0 (s.n - 1) idx then val else curSeq s i) := by
  have h := updatePointAux_spec s.n 1 0 (s.n - 1) s idx val (by omega) (by omega) (by omega) hW
  have hq : updatePoint s idx val = updatePointAux s.n s 1 0 (s.n - 1) idx val := rfl
  rw [← hq] at h
  have hrn : (updatePoint s idx val).n = s.n := h.2.2.2
  refine ⟨?_, hrn, ?_⟩
  · unfold WFt
    rw [hrn]
    exact h.1
  · intro i hi
    unfold curSeq
    rw [hrn]
    exact h.2.1 i (by omega) hi

theorem queryMin_spec (s : AST) (hW : WFt s) (hn : 1 ≤ s.n) (l r : Int) :
    (queryMin s l r).1 = minSpec (curSeq s) 0 (s.n - 1) l r ∧
      (queryMin s l r).2 = (querySum s l r).2 := by
  constructor
  · have h := queryMinAux_value s.n 1 0 (s.n - 1) s l r (by omega) (by omega) (by omega) hW
    exact h
  · exact queryMin_state_eq s.n s 1 0 (s.n - 1) l r

/-- The filter picking `[l, r]` out of `[0, n-1]`, for a valid range. -/
theorem filter_range_eq {n : Nat} {l r : Int} (hn : 1 ≤ n) (hl : 0 ≤ l) (hlr : l ≤ r)
    (hr : r ≤ (n : Int) - 1) :
    (Finset.Icc 0 (n - 1)).filter (fun i : Nat => l ≤ (i : Int) ∧ (i : Int) ≤ r) =
      Finset.Icc l.toNat r.toNat := by
  ext i
  simp only [Finset.mem_filter, Finset.mem_Icc]
  omega

theorem sum_getD (arr : List Int) :
    ∑ i ∈ Finset.range arr.length, arr.getD i 0 = arr.sum := by
  induction arr with
  | nil => simp
  | cons a t iht =>
    rw [List.length_cons, Finset.sum_range_succ', List.sum_cons]
    simp only [List.getD_cons_succ, List.getD_cons_zero]
    rw [iht]
    ring

/-! ### Claim theorems (segment tree) -/

/-- Claim C1: after `updateRange(l, r, delta)` on a valid range of a
well-formed tree, `querySum(l, r)` grows by exactly `delta * (r - l + 1)`,
and `querySum` over any valid range disjoint from `[l, r]` is unchanged. -/
theorem claim_C1 (s : AST) (l r l2 r2 delta : Int) (hW : WFt s) (hn : 1 ≤ s.n)
    (hl : 0 ≤ l) (hlr : l ≤ r) (hr : r ≤ (s.n : Int) - 1)
    (hl2 : 0 ≤ l2) (hlr2 : l2 ≤ r2) (hr2 : r2 ≤ (s.n : Int) - 1)
    (hdisj : r2 < l ∨ r < l2) :
    (querySum (updateRange s l r delta) l r).1 = (querySum s l r).1 + delta * (r - l + 1) ∧
      (querySum (updateRange s l r delta) l2 r2).1 = (querySum s l2 r2).1 := by
  obtain ⟨hW', hn', heff⟩ := updateRange_spec s hW hn l r delta
  have hq1 := querySum_spec (updateRange s l r delta) hW' (by omega) l r
  have hq0 := querySum_spec s hW hn l r
  have hq1d := querySum_spec (updateRange s l r delta) hW' (by omega) l2 r2
  have hq0d := querySum_spec s hW hn l2 r2
  constructor
  · rw [hq1.1, hq0.1]
    unfold clipSum
    rw [hn']
    have hsplit : ∀ i ∈ (Finset.Icc 0 (s.n - 1)).filter
        (fun i : Nat => l ≤ (i : Int) ∧ (i : Int) ≤ r),
        curSeq (updateRange s l r delta) i = curSeq s i + delta := by
      intro i hi
      rw [Finset.mem_filter, Finset.mem_Icc] at hi
      rw [heff i (by omega), if_pos hi.2]
    rw [Finset.sum_congr rfl hsplit, Finset.sum_add_distrib, Finset.sum_const,
      filter_range_eq hn hl hlr hr, Nat.card_Icc, nsmul_eq_mul]
    have hc : ((r.toNat + 1 - l.toNat : Nat) : Int) = r - l + 1 := by omega
    rw [hc]
    ring
  · rw [hq1d.1, hq0d.1]
    unfold clipSum
    rw [hn']
    refine Finset.sum_congr rfl (fun i hi => ?_)
    rw [Finset.mem_filter, Finset.mem_Icc] at hi
    rw [heff i (by omega), if_neg, add_zero]
    intro hcon
    rcases hdisj with h | h <;> omega

/-- Witness for C1 at a concrete input: the tree over `[1, 3, 5, 7]`,
update `[1, 2] += 10`, disjoint query range `[3, 3]`. -/
theorem claim_C1_witness :
    (querySum (updateRange (mkTree [1, 3, 5, 7]) 1 2 10) 1 2).1 =
        (querySum (mkTree [1, 3, 5, 7]) 1 2).1 + 10 * (2 - 1 + 1) ∧
      (querySum (updateRange (mkTree [1, 3, 5, 7]) 1 2 10) 3 3).1 =
        (querySum (mkTree [1, 3, 5, 7]) 3 3).1 :=
  claim_C1 (mkTree [1, 3, 5, 7]) 1 2 3 3 10
    (mkTree_spec [1, 3, 5, 7] (by norm_num)).1 (by decide)
    (by norm_num) (by norm_num) (by decide) (by norm_num) (by norm_num) (by decide)
    (by norm_num)

/-- Claim C2 (code bug): `queryMin` reads the shared `tree` aggregates,
which store *sums*; on the tree built from `[1, 3]` the fully covered root is
returned directly, so `queryMin(0, 1)` evaluates to `4 = 1 + 3` instead of
the minimum `1`.  (The push formula `tree[node] += lazy[node] * len` is also
sum-specific, as the spec itself notes in §4.1/§9.) -/
theorem claim_C2_eval :
    (queryMin (mkTree [1, 3]) 0 1).1 = 4 ∧ (queryMin (mkTree [1, 3]) 0 1).1 ≠ 1 := by decide

/-- Claim C3 fails on the code (counterexample): there is no range
validation anywhere — on the tree over `[1, 3, 5, 7]` (n = 4) the three
calls the spec says must fail with `InvalidRange` all return ordinary
values: the recursion clips `[-1, 3]` and `[0, 4]` to `[0, 3]` (sum 16) and
returns the additive identity 0 for the empty range `[3, 1]`. -/
theorem claim_C3_counterexample :
    (querySum (mkTree [1, 3, 5, 7]) (-1) 3).1 = 16 ∧
      (querySum (mkTree [1, 3, 5, 7]) 3 1).1 = 0 ∧
      (querySum (mkTree [1, 3, 5, 7]) 0 4).1 = 16 := by decide

/-- Claim C3 as amended: `querySum(-1, 3)`, `querySum(3, 1)` and
`querySum(0, n)` do not fail; each returns the sum of the current elements
over the intersection of the requested range with `[0, n-1]` (`0` when the
intersection is empty). -/
theorem claim_C3_amended (s : AST) (hW : WFt s) (hn : 1 ≤ s.n) :
    (querySum s (-1) 3).1 = clipSum s (-1) 3 ∧
      (querySum s 3 1).1 = 0 ∧
      (querySum s 0 (s.n : Int)).1 = clipSum s 0 (s.n : Int) := by
  refine ⟨(querySum_spec s hW hn (-1) 3).1, ?_, (querySum_spec s hW hn 0 (s.n : Int)).1⟩
  rw [(querySum_spec s hW hn 3 1).1]
  unfold clipSum
  rw [Finset.filter_false_of_mem, Finset.sum_empty]
  intro i hi
  intro hcon
  omega

/-- Witness for the amended C3 at the tree over `[1, 2]`. -/
theorem claim_C3_amended_witness :
    (querySum (mkTree [1, 2]) 3 1).1 = 0 :=
  (claim_C3_amended (mkTree [1, 2]) (mkTree_spec [1, 2] (by norm_num)).1 (by decide)).2.1

/-- Claim C4: `updatePoint(idx, v)` followed by `querySum(idx, idx)`
returns exactly `v`, whatever pending deltas were stored above `idx`. -/
theorem claim_C4 (s : AST) (idx v : Int) (hW : WFt s) (hn : 1 ≤ s.n)
    (h0 : 0 ≤ idx) (h1 : idx ≤ (s.n : Int) - 1) :
    (querySum (updatePoint s idx v) idx idx).1 = v := by
  obtain ⟨hW', hn', heff⟩ := updatePoint_spec s hW hn idx v
  have hq := querySum_spec (updatePoint s idx v) hW' (by omega) idx idx
  rw [hq.1]
  unfold clipSum
  rw [hn', filter_range_eq hn h0 le_rfl h1, Finset.Icc_self, Finset.sum_singleton,
    heff idx.toNat (by omega), if_pos]
  have ht := target_eq 0 (s.n - 1) idx (by omega) (by omega)
  omega

/-- Witness for C4: set element 1 of `[5, 6, 7]` to 42 after a pending
range update covering it, then read it back. -/
theorem claim_C4_witness :
    (querySum (updatePoint (updateRange (mkTree [5, 6, 7]) 0 2 100) 1 42) 1 1).1 = 42 :=
  claim_C4 (updateRange (mkTree [5, 6, 7]) 0 2 100) 1 42
    (updateRange_spec (mkTree [5, 6, 7]) (mkTree_spec [5, 6, 7] (by norm_num)).1
      (by decide) 0 2 100).1
    (by rw [(updateRange_spec (mkTree [5, 6, 7]) (mkTree_spec [5, 6, 7] (by norm_num)).1
      (by decide) 0 2 100).2.1]; decide)
    (by norm_num) (by decide)

/-- Claim C5: immediately after construction, `querySum(0, n-1)` is the sum
of the input sequence, every leaf slot holds its element, every internal
slot is the sum of its two children, and every pending value is zero. -/
theorem claim_C5 (arr : List Int) (h : 1 ≤ arr.length) :
    (querySum (mkTree arr) 0 ((arr.length : Int) - 1)).1 = arr.sum ∧
      structOK arr (mkTree arr).tree 1 0 (arr.length - 1) ∧
      (∀ m, (mkTree arr).lazy m = 0) := by
  obtain ⟨hW, hn, hlz, hseq, hstruct⟩ := mkTree_spec arr h
  refine ⟨?_, hstruct, hlz⟩
  have hq := querySum_spec (mkTree arr) hW (by omega) 0 ((arr.length : Int) - 1)
  rw [hq.1]
  unfold clipSum
  rw [hn, Finset.filter_true_of_mem, Finset.sum_congr rfl
    (fun i hi => hseq i (by simp only [Finset.mem_Icc] at hi; omega))]
  · rw [show Finset.Icc 0 (arr.length - 1) = Finset.range arr.length by
      ext i; simp only [Finset.mem_Icc, Finset.mem_range]; omega]
    exact sum_getD arr
  · intro i hi
    simp only [Finset.mem_Icc] at hi
    exact ⟨by omega, by omega⟩

/-- Witness for C5 at `[2, 4, 6]`. -/
theorem claim_C5_witness :
    (querySum (mkTree [2, 4, 6]) 0 ((([2, 4, 6] : List Int).length : Int) - 1)).1 =
      ([2, 4, 6] : List Int).sum :=
  (claim_C5 [2, 4, 6] (by norm_num)).1

/-- Claim C7 (code bug): constructing from the empty sequence neither
raises an error nor yields a safe zero-size tree: `n = 0` makes the
constructor call `build(arr, 1, 0, -1)`, which recurses into
`build(arr, 2, 0, 0)` and there reads `arr[0]` — out of bounds on the
zero-length vector (undefined behaviour in C++). -/
theorem claim_C7_eval : construct [] = Except.error BErr.oobRead := by rfl

/-- Claim C10: with arbitrary integer arguments (including `l > r`, `l < 0`
or `r ≥ n`), `querySum` returns the sum of the current elements over
`[0, n-1] ∩ [l, r]` (0 when empty) and `updateRange` adds its delta to
exactly the elements of that intersection; both model functions are total —
matching the C++ code, which has no error path. -/
theorem claim_C10 (s : AST) (l r delta : Int) (hW : WFt s) (hn : 1 ≤ s.n) :
    (querySum s l r).1 = clipSum s l r ∧
      (∀ i, i ≤ s.n - 1 → curSeq (updateRange s l r delta) i =
        curSeq s i + (if l ≤ (i : Int) ∧ (i : Int) ≤ r then delta else 0)) :=
  ⟨(querySum_spec s hW hn l r).1, (updateRange_spec s hW hn l r delta).2.2⟩

/-- Witness for C10 at the tree over `[1, 2]` with the out-of-range
arguments `l = -3`, `r = 5`. -/
theorem claim_C10_witness :
    (querySum (mkTree [1, 2]) (-3) 5).1 = clipSum (mkTree [1, 2]) (-3) 5 :=
  (claim_C10 (mkTree [1, 2]) (-3) 5 7 (mkTree_spec [1, 2] (by norm_num)).1 (by decide)).1

/-! ### The push-apply invariant along root paths (claim C6) -/

/-- Under the invariant, a node's pending-adjusted aggregate is its
subtree's denoted sum. -/
theorem WFa_denSum_tree {s : AST} :
    ∀ node start e, start ≤ e → WFa s node start e →
      denSum s node start e = s.tree node + s.lazy node * ((e : Int) - (start : Int) + 1) := by
  intro node start e hse hwf
  by_cases hle : e ≤ start
  · have : e = start := by omega
    subst this
    rw [denSum_leaf le_rfl]
    have : (e : Int) - (e : Int) + 1 = 1 := by ring
    rw [this]
    ring
  · have hlt : start < e := by omega
    rw [WFa_node hlt] at hwf
    rw [denSum_node hlt, hwf.1]
    ring

theorem path_decomp (s : AST) :
    ∀ ds node start e, 1 ≤ node → start ≤ e → WFa s node start e →
      okPath (node, start, e) ds →
      1 ≤ (descend (node, start, e) ds).1 ∧
        start ≤ (descend (node, start, e) ds).2.1 ∧
        (descend (node, start, e) ds).2.1 ≤ (descend (node, start, e) ds).2.2 ∧
        (descend (node, start, e) ds).2.2 ≤ e ∧
        WFa s (descend (node, start, e) ds).1 (descend (node, start, e) ds).2.1
          (descend (node, start, e) ds).2.2 ∧
        (∑ i ∈ Finset.Icc (descend (node, start, e) ds).2.1 (descend (node, start, e) ds).2.2,
            elemAt s node start e i) =
          pathPending s (node, start, e) ds *
              (((descend (node, start, e) ds).2.2 : Int) -
                ((descend (node, start, e) ds).2.1 : Int) + 1) +
            denSum s (descend (node, start, e) ds).1 (descend (node, start, e) ds).2.1
              (descend (node, start, e) ds).2.2 := by
  intro ds
  induction ds with
  | nil =>
    intro node start e hn hse hwf _
    refine ⟨hn, le_rfl, hse, le_rfl, hwf, ?_⟩
    show (∑ i ∈ Finset.Icc start e, elemAt s node start e i) =
      0 * ((e : Int) - (start : Int) + 1) + denSum s node start e
    rw [← denSum_eq_sum _ _ _ hse]
    ring
  | cons d ds ih =>
    intro node start e hn hse hwf hok
    obtain ⟨hlt, hok2⟩ := hok
    have hm1 : start ≤ (start + e) / 2 := by omega
    have hm2 : (start + e) / 2 < e := by omega
    have hwfc := (WFa_node hlt).1 hwf
    cases d
    · -- right child
      have hdesc : descend (node, start, e) (false :: ds) =
          descend (2 * node + 1, (start + e) / 2 + 1, e) ds := rfl
      have hpp : pathPending s (node, start, e) (false :: ds) =
          s.lazy node + pathPending s (2 * node + 1, (start + e) / 2 + 1, e) ds := rfl
      rw [hdesc, hpp]
      have ihc := ih (2 * node + 1) ((start + e) / 2 + 1) e (by omega) (by omega) hwfc.2.2
        hok2
      obtain ⟨c1, c2, c3, c4, c5, c6⟩ := ihc
      refine ⟨c1, by omega, c3, c4, c5, ?_⟩
      have hrw : ∀ i ∈ Finset.Icc (descend (2 * node + 1, (start + e) / 2 + 1, e) ds).2.1
          (descend (2 * node + 1, (start + e) / 2 + 1, e) ds).2.2,
          elemAt s node start e i =
            s.lazy node + elemAt s (2 * node + 1) ((start + e) / 2 + 1) e i := by
        intro i hi
        simp only [Finset.mem_Icc] at hi
        rw [elemAt_node hlt, if_neg (by omega)]
      rw [Finset.sum_congr rfl hrw, Finset.sum_add_distrib, Finset.sum_const, c6,
        Nat.card_Icc, nsmul_eq_mul]
      have hc : (((descend (2 * node + 1, (start + e) / 2 + 1, e) ds).2.2 + 1 -
          (descend (2 * node + 1, (start + e) / 2 + 1, e) ds).2.1 : Nat) : Int) =
          ((descend (2 * node + 1, (start + e) / 2 + 1, e) ds).2.2 : Int) -
            ((descend (2 * node + 1, (start + e) / 2 + 1, e) ds).2.1 : Int) + 1 := by
        omega
      rw [hc]
      ring
    · -- left child
      have hdesc : descend (node, start, e) (true :: ds) =
          descend (2 * node, start, (start + e) / 2) ds := rfl
      have hpp : pathPending s (node, start, e) (true :: ds) =
          s.lazy node + pathPending s (2 * node, start, (start + e) / 2) ds := rfl
      rw [hdesc, hpp]
      have ihc := ih (2 * node) start ((start + e) / 2) (by omega) hm1 hwfc.2.1 hok2
      obtain ⟨c1, c2, c3, c4, c5, c6⟩ := ihc
      refine ⟨c1, c2, c3, by omega, c5, ?_⟩
      have hrw : ∀ i ∈ Finset.Icc (descend (2 * node, start, (start + e) / 2) ds).2.1
          (descend (2 * node, start, (start + e) / 2) ds).2.2,
          elemAt s node start e i =
            s.lazy node + elemAt s (2 * node) start ((start + e) / 2) i := by
        intro i hi
        simp only [Finset.mem_Icc] at hi
        rw [elemAt_node hlt, if_pos (by omega)]
      rw [Finset.sum_congr rfl hrw, Finset.sum_add_distrib, Finset.sum_const, c6,
        Nat.card_Icc, nsmul_eq_mul]
      have hc : (((descend (2 * node, start, (start + e) / 2) ds).2.2 + 1 -
          (descend (2 * node, start, (start + e) / 2) ds).2.1 : Nat) : Int) =
          ((descend (2 * node, start, (start + e) / 2) ds).2.2 : Int) -
            ((descend (2 * node, start, (start + e) / 2) ds).2.1 : Int) + 1 := by
        omega
      rw [hc]
      ring

/-- Claim C6: in a well-formed state, for the node reached by any
descent path from the root: (i) the true sum of the node's range differs
from `tree[node]` by exactly the pending deltas on the node and its
ancestors, scaled by the range length; and (ii) immediately after
push-apply (`updateLazy`) the node's own pending is zero and its aggregate
equals the true range sum minus only the still-unpushed ancestor pendings —
so when an operation's descent has already pushed the ancestors (ancestor
pendings zero), the aggregate equals the true sum of the range. -/
theorem claim_C6 (s : AST) (ds : List Bool) (hW : WFt s) (hn : 1 ≤ s.n)
    (hok : okPath (1, 0, s.n - 1) ds) :
    (∑ i ∈ Finset.Icc (descend (1, 0, s.n - 1) ds).2.1 (descend (1, 0, s.n - 1) ds).2.2,
        curSeq s i) =
        s.tree (descend (1, 0, s.n - 1) ds).1 +
          (s.lazy (descend (1, 0, s.n - 1) ds).1 + pathPending s (1, 0, s.n - 1) ds) *
            (((descend (1, 0, s.n - 1) ds).2.2 : Int) -
              ((descend (1, 0, s.n - 1) ds).2.1 : Int) + 1) ∧
      (updateLazy s (descend (1, 0, s.n - 1) ds).1 (descend (1, 0, s.n - 1) ds).2.1
          (descend (1, 0, s.n - 1) ds).2.2).lazy (descend (1, 0, s.n - 1) ds).1 = 0 ∧
      (updateLazy s (descend (1, 0, s.n - 1) ds).1 (descend (1, 0, s.n - 1) ds).2.1
          (descend (1, 0, s.n - 1) ds).2.2).tree (descend (1, 0, s.n - 1) ds).1 =
        (∑ i ∈ Finset.Icc (descend (1, 0, s.n - 1) ds).2.1 (descend (1, 0, s.n - 1) ds).2.2,
            curSeq s i) -
          pathPending s (1, 0, s.n - 1) ds *
            (((descend (1, 0, s.n - 1) ds).2.2 : Int) -
              ((descend (1, 0, s.n - 1) ds).2.1 : Int) + 1) := by
  obtain ⟨c1, c2, c3, c4, c5, c6⟩ := path_decomp s ds 1 0 (s.n - 1) (by omega) (by omega) hW hok
  have hden := WFa_denSum_tree (descend (1, 0, s.n - 1) ds).1 (descend (1, 0, s.n - 1) ds).2.1
    (descend (1, 0, s.n - 1) ds).2.2 c3 c5
  have hsum : (∑ i ∈ Finset.Icc (descend (1, 0, s.n - 1) ds).2.1
      (descend (1, 0, s.n - 1) ds).2.2, curSeq s i) =
      pathPending s (1, 0, s.n - 1) ds *
          (((descend (1, 0, s.n - 1) ds).2.2 : Int) -
            ((descend (1, 0, s.n - 1) ds).2.1 : Int) + 1) +
        denSum s (descend (1, 0, s.n - 1) ds).1 (descend (1, 0, s.n - 1) ds).2.1
          (descend (1, 0, s.n - 1) ds).2.2 := c6
  refine ⟨?_, updateLazy_lazy_node _ _ _ _, ?_⟩
  · rw [hsum, hden]
    ring
  · rw [updateLazy_tree_denSum c1 c3 c5, hsum]
    ring

/-- Witness for C6: the tree over `[1, 2, 3]`, path `[true]` (left child
of the root, covering `[0, 1]`). -/
theorem claim_C6_witness :
    (∑ i ∈ Finset.Icc (descend (1, 0, (mkTree [1, 2, 3]).n - 1) [true]).2.1
        (descend (1, 0, (mkTree [1, 2, 3]).n - 1) [true]).2.2, curSeq (mkTree [1, 2, 3]) i) =
      (mkTree [1, 2, 3]).tree (descend (1, 0, (mkTree [1, 2, 3]).n - 1) [true]).1 +
        ((mkTree [1, 2, 3]).lazy (descend (1, 0, (mkTree [1, 2, 3]).n - 1) [true]).1 +
            pathPending (mkTree [1, 2, 3]) (1, 0, (mkTree [1, 2, 3]).n - 1) [true]) *
          (((descend (1, 0, (mkTree [1, 2, 3]).n - 1) [true]).2.2 : Int) -
            ((descend (1, 0, (mkTree [1, 2, 3]).n - 1) [true]).2.1 : Int) + 1) :=
  (claim_C6 (mkTree [1, 2, 3]) [true] (mkTree_spec [1, 2, 3] (by norm_num)).1 (by decide)
    ⟨by decide, trivial⟩).1

/-! ### Observational purity of `querySum` (claim C9) -/

theorem clipSum_congr {s1 s2 : AST} (hnn : s1.n = s2.n)
    (hc : ∀ i, i ≤ s1.n - 1 → curSeq s1 i = curSeq s2 i) (l r : Int) :
    clipSum s1 l r = clipSum s2 l r := by
  unfold clipSum
  rw [hnn]
  refine Finset.sum_congr rfl (fun i hi => ?_)
  rw [Finset.mem_filter, Finset.mem_Icc] at hi
  exact hc i (by omega)

theorem runCmds_congr :
    ∀ cs (s s' : AST), WFt s → WFt s' → 1 ≤ s.n → s.n = s'.n →
      (∀ i, i ≤ s.n - 1 → curSeq s i = curSeq s' i) →
      (runCmds s cs).1 = (runCmds s' cs).1 := by
  intro cs
  induction cs with
  | nil => intro s s' _ _ _ _ _; rfl
  | cons c cs ih =>
    intro s s' hW hW' hn hnn hc
    have hstep : (runCmd s c).1 = (runCmd s' c).1 ∧
        WFt (runCmd s c).2 ∧ WFt (runCmd s' c).2 ∧ (runCmd s c).2.n = s.n ∧
        (runCmd s' c).2.n = s'.n ∧
        (∀ i, i ≤ s.n - 1 → curSeq (runCmd s c).2 i = curSeq (runCmd s' c).2 i) := by
      cases c with
      | qSum l r =>
        obtain ⟨hv, hw, hsn, hcs⟩ := querySum_spec s hW hn l r
        obtain ⟨hv', hw', hsn', hcs'⟩ := querySum_spec s' hW' (by omega) l r
        refine ⟨?_, hw, hw', hsn, hsn', ?_⟩
        · show some (querySum s l r).1 = some (querySum s' l r).1
          rw [hv, hv', clipSum_congr hnn hc]
        · intro i hi
          show curSeq (querySum s l r).2 i = curSeq (querySum s' l r).2 i
          rw [hcs i, hcs' i]
          exact hc i hi
      | qMin l r =>
        obtain ⟨hv, hst⟩ := queryMin_spec s hW hn l r
        obtain ⟨hv', hst'⟩ := queryMin_spec s' hW' (by omega) l r
        obtain ⟨_, hw, hsn, hcs⟩ := querySum_spec s hW hn l r
        obtain ⟨_, hw', hsn', hcs'⟩ := querySum_spec s' hW' (by omega) l r
        refine ⟨?_, ?_, ?_, ?_, ?_, ?_⟩
        · show some (queryMin s l r).1 = some (queryMin s' l r).1
          rw [hv, hv', hnn, minSpec_congr _ _ _ _ (fun i a b => hc i (by omega))]
        · show WFt (queryMin s l r).2
          rw [hst]
          exact hw
        · show WFt (queryMin s' l r).2
          rw [hst']
          exact hw'
        · show (queryMin s l r).2.n = s.n
          rw [hst]
          exact hsn
        · show (queryMin s' l r).2.n = s'.n
          rw [hst']
          exact hsn'
        · intro i hi
          show curSeq (queryMin s l r).2 i = curSeq (queryMin s' l r).2 i
          rw [hst, hst', hcs i, hcs' i]
          exact hc i hi
      | uRange l r v =>
        obtain ⟨hw, hsn, hcs⟩ := updateRange_spec s hW hn l r v
        obtain ⟨hw', hsn', hcs'⟩ := updateRange_spec s' hW' (by omega) l r v
        refine ⟨rfl, hw, hw', hsn, hsn', ?_⟩
        intro i hi
        show curSeq (updateRange s l r v) i = curSeq (updateRange s' l r v) i
        rw [hcs i hi, hcs' i (by omega), hc i hi]
      | uPoint idx v =>
        obtain ⟨hw, hsn, hcs⟩ := updatePoint_spec s hW hn idx v
        obtain ⟨hw', hsn', hcs'⟩ := updatePoint_spec s' hW' (by omega) idx v
        refine ⟨rfl, hw, hw', hsn, hsn', ?_⟩
        intro i hi
        show curSeq (updatePoint s idx v) i = curSeq (updatePoint s' idx v) i
        rw [hcs i hi, hcs' i (by omega), ← hnn]
        split
        · rfl
        · exact hc i hi
    show ((runCmd s c).1 :: (runCmds (runCmd s c).2 cs).1) =
      ((runCmd s' c).1 :: (runCmds (runCmd s' c).2 cs).1)
    rw [hstep.1, ih (runCmd s c).2 (runCmd s' c).2 hstep.2.1 hstep.2.2.1
      (by omega) (by omega) (fun i hi => hstep.2.2.2.2.2 i (by omega))]

/-- Claim C9: `querySum` is observationally pure although it mutates
internal state: running any sequence of public operations after an extra
`querySum(l, r)` call produces exactly the same outputs as without it, and
an immediately repeated `querySum(l, r)` returns the same value. -/
theorem claim_C9 (s : AST) (l r : Int) (cs : List Cmd) (hW : WFt s) (hn : 1 ≤ s.n) :
    (runCmds (querySum s l r).2 cs).1 = (runCmds s cs).1 ∧
      (querySum (querySum s l r).2 l r).1 = (querySum s l r).1 := by
  obtain ⟨hv, hw, hsn, hcs⟩ := querySum_spec s hW hn l r
  constructor
  · exact runCmds_congr cs (querySum s l r).2 s hw hW (by omega) hsn
      (fun i hi => hcs i)
  · obtain ⟨hv2, _, _, _⟩ := querySum_spec (querySum s l r).2 hw (by omega) l r
    rw [hv2, hv, clipSum_congr hsn (fun i hi => hcs i)]

/-- Witness for C9: `querySum(0, 1)` inserted before a mixed command list
on the tree over `[1, 2]`. -/
theorem claim_C9_witness :
    (runCmds (querySum (mkTree [1, 2]) 0 1).2 [Cmd.uRange 0 1 5, Cmd.qSum 0 1]).1 =
        (runCmds (mkTree [1, 2]) [Cmd.uRange 0 1 5, Cmd.qSum 0 1]).1 ∧
      (querySum (querySum (mkTree [1, 2]) 0 1).2 0 1).1 = (querySum (mkTree [1, 2]) 0 1).1 :=
  claim_C9 (mkTree [1, 2]) 0 1 [Cmd.uRange 0 1 5, Cmd.qSum 0 1]
    (mkTree_spec [1, 2] (by norm_num)).1 (by decide)

end SegTree

namespace Fenwick

/-! ### `lowBit` arithmetic -/

theorem lowBitGo_zero_val : ∀ fuel, lowBitGo fuel 0 = 0 := by
  intro fuel
  cases fuel <;> rfl

theorem lowBitGo_fuel :
    ∀ f1 f2 i, i ≤ f1 → i ≤ f2 → lowBitGo f1 i = lowBitGo f2 i := by
  intro f1
  induction f1 with
  | zero =>
    intro f2 i h1 _
    have : i = 0 := by omega
    subst this
    rw [lowBitGo_zero_val, lowBitGo_zero_val]
  | succ f1 ih =>
    intro f2 i h1 h2
    by_cases h0 : i = 0
    · subst h0
      rw [lowBitGo_zero_val, lowBitGo_zero_val]
    · obtain ⟨f2', rfl⟩ : ∃ f2', f2 = f2' + 1 := ⟨f2 - 1, by omega⟩
      show (if i = 0 then 0 else if i % 2 = 1 then 1 else 2 * lowBitGo f1 (i / 2)) =
        (if i = 0 then 0 else if i % 2 = 1 then 1 else 2 * lowBitGo f2' (i / 2))
      rw [if_neg h0, if_neg h0]
      by_cases hodd : i % 2 = 1
      · rw [if_pos hodd, if_pos hodd]
      · rw [if_neg hodd, if_neg hodd, ih f2' (i / 2) (by omega) (by omega)]

theorem lowBit_odd {i : Nat} (h : i % 2 = 1) : lowBit i = 1 := by
  obtain ⟨k, rfl⟩ : ∃ k, i = k + 1 := ⟨i - 1, by omega⟩
  show (if k + 1 = 0 then 0 else if (k + 1) % 2 = 1 then 1 else 2 * lowBitGo k ((k + 1) / 2)) = 1
  rw [if_neg (by omega), if_pos h]

theorem lowBit_even {k : Nat} (h : 1 ≤ k) : lowBit (2 * k) = 2 * lowBit k := by
  have h2 : 2 * k = (2 * k - 1) + 1 := by omega
  show lowBitGo (2 * k) (2 * k) = 2 * lowBit k
  rw [h2]
  show (if (2 * k - 1) + 1 = 0 then 0 else if ((2 * k - 1) + 1) % 2 = 1 then 1
    else 2 * lowBitGo (2 * k - 1) (((2 * k - 1) + 1) / 2)) = 2 * lowBit k
  rw [if_neg (by omega), if_neg (by omega), show ((2 * k - 1) + 1) / 2 = k by omega,
    lowBitGo_fuel (2 * k - 1) k k (by omega) le_rfl]
  rfl

/-- Every positive number is `2^a * odd`, and `lowBit` extracts `2^a`. -/
theorem lowBit_decomp :
    ∀ i, 1 ≤ i → ∃ a u, i = 2 ^ a * u ∧ u % 2 = 1 ∧ lowBit i = 2 ^ a := by
  intro i
  induction i using Nat.strong_induction_on with
  | _ i ih =>
    intro hi
    by_cases hodd : i % 2 = 1
    · exact ⟨0, i, by ring, hodd, by rw [lowBit_odd hodd]; rfl⟩
    · have h2 : i = 2 * (i / 2) := by omega
      have hk : 1 ≤ i / 2 := by omega
      obtain ⟨a, u, hdu, hou, hlb⟩ := ih (i / 2) (by omega) hk
      refine ⟨a + 1, u, ?_, hou, ?_⟩
      · rw [h2, hdu]
        ring
      · rw [h2, lowBit_even hk, hlb]
        ring

theorem lowBit_pos {i : Nat} (h : 1 ≤ i) : 1 ≤ lowBit i := by
  obtain ⟨a, u, _, _, hlb⟩ := lowBit_decomp i h
  rw [hlb]
  exact Nat.one_le_two_pow

theorem lowBit_le {i : Nat} (h : 1 ≤ i) : lowBit i ≤ i := by
  obtain ⟨a, u, hdu, hou, hlb⟩ := lowBit_decomp i h
  rw [hlb, hdu]
  have hu : 1 ≤ u := by omega
  calc 2 ^ a = 2 ^ a * 1 := by ring
    _ ≤ 2 ^ a * u := by exact Nat.mul_le_mul_left _ hu

theorem lowBit_pow_mul : ∀ b w, 1 ≤ w → lowBit (2 ^ b * w) = 2 ^ b * lowBit w := by
  intro b
  induction b with
  | zero =>
    intro w _
    simp
  | succ b ih =>
    intro w hw
    have h1 : 2 ^ (b + 1) * w = 2 * (2 ^ b * w) := by ring
    have h2 : 0 < 2 ^ b * w := Nat.mul_pos (pow_pos (by omega) b) (by omega)
    rw [h1, lowBit_even h2, ih w hw]
    ring

/-- Carry: adding the low bit at least doubles it. -/
theorem lowBit_carry {i : Nat} (h : 1 ≤ i) : 2 * lowBit i ≤ lowBit (i + lowBit i) := by
  obtain ⟨a, u, hdu, hou, hlb⟩ := lowBit_decomp i h
  have hsum : i + lowBit i = 2 ^ (a + 1) * ((u + 1) / 2) := by
    rw [hlb, hdu]
    have : (u + 1) / 2 * 2 = u + 1 := by omega
    calc 2 ^ a * u + 2 ^ a = 2 ^ a * (u + 1) := by ring
      _ = 2 ^ a * ((u + 1) / 2 * 2) := by rw [this]
      _ = 2 ^ (a + 1) * ((u + 1) / 2) := by ring
  have hw : 1 ≤ (u + 1) / 2 := by omega
  rw [hsum, lowBit_pow_mul (a + 1) _ hw, hlb]
  have : 1 ≤ lowBit ((u + 1) / 2) := lowBit_pos hw
  calc 2 * 2 ^ a = 2 ^ (a + 1) * 1 := by ring
    _ ≤ 2 ^ (a + 1) * lowBit ((u + 1) / 2) := Nat.mul_le_mul_left _ this

/-- If `m` covers `p` (that is `m - lowBit m < p ≤ m`) and `m ≠ p`, then `m`
only starts at or after the next chain element `p + lowBit p`. -/
theorem cover_next {p m : Nat} (hp : 1 ≤ p) (hpm : p < m) (hcov : m - lowBit m < p) :
    p + lowBit p ≤ m := by
  obtain ⟨a, u, hdu, hou, hlba⟩ := lowBit_decomp p hp
  obtain ⟨b, v, hdv, hov, hlbb⟩ := lowBit_decomp m (by omega)
  by_cases hba : b ≤ a
  · exfalso
    have hdp : 2 ^ b ∣ p := hdu ▸ Dvd.dvd.mul_right (pow_dvd_pow 2 hba) u
    have hdm : 2 ^ b ∣ m := hdv ▸ Dvd.dvd.mul_right dvd_rfl v
    have hdsub : 2 ^ b ∣ m - p := Nat.dvd_sub' hdm hdp
    have hge : 2 ^ b ≤ m - p := Nat.le_of_dvd (by omega) hdsub
    rw [hlbb] at hcov
    omega
  · have hab : a + 1 ≤ b := by omega
    have hdm : 2 ^ (a + 1) ∣ m := hdv ▸ Dvd.dvd.mul_right (pow_dvd_pow 2 hab) v
    have hdp' : 2 ^ (a + 1) ∣ p + lowBit p := by
      rw [hlba, hdu]
      have : (u + 1) / 2 * 2 = u + 1 := by omega
      have heq : 2 ^ a * u + 2 ^ a = 2 ^ (a + 1) * ((u + 1) / 2) := by
        calc 2 ^ a * u + 2 ^ a = 2 ^ a * (u + 1) := by ring
          _ = 2 ^ a * ((u + 1) / 2 * 2) := by rw [this]
          _ = 2 ^ (a + 1) * ((u + 1) / 2) := by ring
      rw [heq]
      exact Dvd.dvd.mul_right dvd_rfl _
    by_contra hcon
    push_neg at hcon
    have hlt : m < p + lowBit p := hcon
    have hdsub : 2 ^ (a + 1) ∣ (p + lowBit p) - m := Nat.dvd_sub' hdp' hdm
    have hge : 2 ^ (a + 1) ≤ (p + lowBit p) - m := Nat.le_of_dvd (by omega) hdsub
    rw [hlba] at hlt hge
    have hpow : 2 ^ (a + 1) = 2 * 2 ^ a := by ring
    omega

/-- If `m` covers `p + lowBit p`, it also covers `p`. -/
theorem cover_down {p m : Nat} (hp : 1 ≤ p) (hpm : p + lowBit p ≤ m)
    (hcov : m - lowBit m < p + lowBit p) : m - lowBit m < p := by
  obtain ⟨a, u, hdu, hou, hlba⟩ := lowBit_decomp p hp
  have hp' : 1 ≤ p + lowBit p := by omega
  obtain ⟨c, w, hdw, how, hlbc⟩ := lowBit_decomp (p + lowBit p) hp'
  have hcarry : 2 * lowBit p ≤ lowBit (p + lowBit p) := lowBit_carry hp
  have hac : a + 1 ≤ c := by
    rw [hlbc, hlba] at hcarry
    have h2 : (2 : Nat) ^ (a + 1) ≤ 2 ^ c := by
      calc (2 : Nat) ^ (a + 1) = 2 * 2 ^ a := by ring
        _ ≤ 2 ^ c := hcarry
    exact (Nat.pow_le_pow_iff_right (by omega)).1 h2
  rcases Nat.eq_or_lt_of_le hpm with heq | hlt
  · -- m = p + lowBit p
    rw [← heq, hlbc]
    have h2c : 2 ^ (a + 1) ≤ 2 ^ c := Nat.pow_le_pow_right (by omega) hac
    rw [hlba]
    have hpow : 2 ^ (a + 1) = 2 * 2 ^ a := by ring
    have h1a : 0 < 2 ^ a := pow_pos (by omega) a
    omega
  · -- m > p + lowBit p: first, m must be divisible by 2 ^ (c + 1)
    obtain ⟨b, v, hdv, hov, hlbb⟩ := lowBit_decomp m (by omega)
    have hcb : c + 1 ≤ b := by
      by_contra hcon
      push_neg at hcon
      have hbc : b ≤ c := by omega
      have hdp : 2 ^ b ∣ p + lowBit p := hdw ▸ Dvd.dvd.mul_right (pow_dvd_pow 2 hbc) w
      have hdm : 2 ^ b ∣ m := hdv ▸ Dvd.dvd.mul_right dvd_rfl v
      have hdsub : 2 ^ b ∣ m - (p + lowBit p) := Nat.dvd_sub' hdm hdp
      have hge : 2 ^ b ≤ m - (p + lowBit p) := Nat.le_of_dvd (by omega) hdsub
      rw [hlbb] at hcov
      omega
    have hdm : 2 ^ (a + 1) ∣ m :=
      hdv ▸ Dvd.dvd.mul_right (pow_dvd_pow 2 (by omega)) v
    have hdlbm : 2 ^ (a + 1) ∣ lowBit m := by
      rw [hlbb]
      exact pow_dvd_pow 2 (by omega)
    have hdsub : 2 ^ (a + 1) ∣ m - lowBit m := Nat.dvd_sub' hdm hdlbm
    have hdp' : 2 ^ (a + 1) ∣ p + lowBit p := by
      rw [hlba, hdu]
      have : (u + 1) / 2 * 2 = u + 1 := by omega
      have heq : 2 ^ a * u + 2 ^ a = 2 ^ (a + 1) * ((u + 1) / 2) := by
        calc 2 ^ a * u + 2 ^ a = 2 ^ a * (u + 1) := by ring
          _ = 2 ^ a * ((u + 1) / 2 * 2) := by rw [this]
          _ = 2 ^ (a + 1) * ((u + 1) / 2) := by ring
      rw [heq]
      exact Dvd.dvd.mul_right dvd_rfl _
    by_contra hcon
    push_neg at hcon
    have hdsub2 : 2 ^ (a + 1) ∣ (p + lowBit p) - (m - lowBit m) := Nat.dvd_sub' hdp' hdsub
    have hge : 2 ^ (a + 1) ≤ (p + lowBit p) - (m - lowBit m) :=
      Nat.le_of_dvd (by omega) hdsub2
    rw [hlba] at hcov hge
    have hpow : 2 ^ (a + 1) = 2 * 2 ^ a := by ring
    have h1a : 0 < 2 ^ a := pow_pos (by omega) a
    omega

/-! ### The update chain and the loop bodies -/

theorem chainMem_le : ∀ fuel n i m, chainMem fuel n i m → i ≤ m ∧ m ≤ n := by
  intro fuel
  induction fuel with
  | zero =>
    intro n i m h
    exact h.elim
  | succ fuel ih =>
    intro n i m h
    simp only [chainMem] at h
    by_cases hin : i ≤ n
    · rw [if_pos hin] at h
      rcases h with rfl | h
      · exact ⟨le_rfl, hin⟩
      · have := ih n (i + lowBit i) m h
        omega
    · rw [if_neg hin] at h
      exact h.elim

/-- The chain from `p` visits exactly the slots whose responsibility range
`(m - lowBit m, m]` contains `p`. -/
theorem chainMem_iff : ∀ fuel n p m, 1 ≤ p → n + 1 - p ≤ fuel →
    (chainMem fuel n p m ↔ (p ≤ m ∧ m ≤ n ∧ m - lowBit m < p)) := by
  intro fuel
  induction fuel with
  | zero =>
    intro n p m hp hf
    constructor
    · intro h
      exact h.elim
    · rintro ⟨h1, h2, _⟩
      exfalso
      omega
  | succ fuel ih =>
    intro n p m hp hf
    simp only [chainMem]
    have hlb := lowBit_pos hp
    by_cases hin : p ≤ n
    · rw [if_pos hin]
      constructor
      · rintro (rfl | h)
        · exact ⟨le_rfl, hin, by omega⟩
        · obtain ⟨a1, a2, a3⟩ := (ih n (p + lowBit p) m (by omega) (by omega)).1 h
          exact ⟨by omega, a2, cover_down hp a1 a3⟩
      · rintro ⟨h1, h2, h3⟩
        by_cases hmp : m = p
        · exact Or.inl hmp
        · right
          have hlt : p < m := by omega
          have hnext := cover_next hp hlt h3
          exact (ih n (p + lowBit p) m (by omega) (by omega)).2 ⟨hnext, h2, by omega⟩
    · rw [if_neg hin]
      constructor
      · intro h
        exact h.elim
      · rintro ⟨h1, h2, _⟩
        exact absurd (le_trans h1 h2) hin

/-- The update loop adds `v` exactly once to every slot of the chain. -/
theorem updateAux_spec :
    ∀ fuel n v b i m, 1 ≤ i →
      (chainMem fuel n i m → updateAux fuel n v b i m = b m + v) ∧
      (¬ chainMem fuel n i m → updateAux fuel n v b i m = b m) := by
  intro fuel
  induction fuel with
  | zero =>
    intro n v b i m hi
    exact ⟨fun h => h.elim, fun _ => rfl⟩
  | succ fuel ih =>
    intro n v b i m hi
    by_cases hin : i ≤ n
    · have hstep : updateAux (fuel + 1) n v b i =
          updateAux fuel n v (SegTree.upd b i (b i + v)) (i + lowBit i) := by
        simp only [updateAux]
        rw [if_pos hin]
      have hcm : chainMem (fuel + 1) n i m ↔ (m = i ∨ chainMem fuel n (i + lowBit i) m) := by
        simp only [chainMem]
        rw [if_pos hin]
      have hlb := lowBit_pos hi
      have ihn := ih n v (SegTree.upd b i (b i + v)) (i + lowBit i) m (by omega)
      constructor
      · intro h
        rw [hcm] at h
        rcases h with rfl | h
        · have hnot : ¬ chainMem fuel n (m + lowBit m) m := by
            intro hc
            have := chainMem_le fuel n (m + lowBit m) m hc
            omega
          rw [hstep, ihn.2 hnot, SegTree.upd_same]
        · have hne : m ≠ i := by
            have := chainMem_le fuel n (i + lowBit i) m h
            omega
          rw [hstep, ihn.1 h, SegTree.upd_other _ _ hne]
      · intro h
        rw [hcm] at h
        push_neg at h
        rw [hstep, ihn.2 h.2, SegTree.upd_other _ _ h.1]
    · have hstep : updateAux (fuel + 1) n v b i = b := by
        simp only [updateAux]
        rw [if_neg hin]
      constructor
      · intro h
        simp only [chainMem] at h
        rw [if_neg hin] at h
        exact h.elim
      · intro _
        rw [hstep]

/-- Under the Fenwick invariant the query loop returns the prefix sum. -/
theorem queryAux_prefixSum (n : Nat) (a : Nat → Int) :
    ∀ fuel b j, Ideal n b a → j ≤ n → j < fuel →
      queryAux fuel b j = ∑ k ∈ Finset.Ioc 0 j, a k := by
  intro fuel
  induction fuel with
  | zero =>
    intro b j _ _ hf
    exact absurd hf (by omega)
  | succ fuel ih =>
    intro b j hI hj hf
    by_cases hj0 : 0 < j
    · have hstep : queryAux (fuel + 1) b j = b j + queryAux fuel b (j - lowBit j) := by
        simp only [queryAux]
        rw [if_pos hj0]
      have hlb1 := lowBit_pos (show 1 ≤ j by omega)
      have hlb2 := lowBit_le (show 1 ≤ j by omega)
      rw [hstep, hI j (by omega) hj, ih b (j - lowBit j) hI (by omega) (by omega)]
      have hco := Finset.sum_Ioc_consecutive a
        (show 0 ≤ j - lowBit j by omega) (show j - lowBit j ≤ j by omega)
      linarith [hco]
    · have hstep : queryAux (fuel + 1) b j = 0 := by
        simp only [queryAux]
        rw [if_neg hj0]
      have hj' : j = 0 := by omega
      subst hj'
      rw [hstep]
      simp

/-! ### The Fenwick invariant through construction and updates -/

theorem Ideal_congr {n : Nat} {b a a' : Nat → Int}
    (h : ∀ k, 1 ≤ k → k ≤ n → a k = a' k) : Ideal n b a → Ideal n b a' := by
  intro hI i h1 h2
  rw [hI i h1 h2]
  refine Finset.sum_congr rfl (fun k hk => ?_)
  rw [Finset.mem_Ioc] at hk
  exact h k (by omega) (by omega)

theorem update_Ideal {n : Nat} {b a : Nat → Int} (hI : Ideal n b a) {p : Nat}
    (hp1 : 1 ≤ p) (hpn : p ≤ n) (v : Int) :
    Ideal n (updateAux (n + 1) n v b p) (fun k => if k = p then a k + v else a k) := by
  intro i h1 h2
  have hiff := chainMem_iff (n + 1) n p i hp1 (by omega)
  have hpt : ∀ k ∈ Finset.Ioc (i - lowBit i) i,
      (if k = p then a k + v else a k) = a k + (if k = p then v else 0) := by
    intro k _
    split <;> ring
  rw [Finset.sum_congr rfl hpt, Finset.sum_add_distrib,
    Finset.sum_ite_eq' (Finset.Ioc (i - lowBit i) i) p (fun _ => v)]
  by_cases hc : chainMem (n + 1) n p i
  · rw [(updateAux_spec (n + 1) n v b p i hp1).1 hc, hI i h1 h2]
    obtain ⟨hc1, hc2, hc3⟩ := hiff.1 hc
    rw [if_pos]
    rw [Finset.mem_Ioc]
    omega
  · rw [(updateAux_spec (n + 1) n v b p i hp1).2 hc, hI i h1 h2, if_neg, add_zero]
    intro hmem
    rw [Finset.mem_Ioc] at hmem
    exact hc (hiff.2 ⟨by omega, h2, by omega⟩)

theorem applyUpdates_n : ∀ us (t : BIT), (applyUpdates t us).n = t.n := by
  intro us
  induction us with
  | nil =>
    intro t
    rfl
  | cons u us ih =>
    intro t
    show (applyUpdates (update t u.1 u.2) us).n = t.n
    rw [ih]
    rfl

theorem applyUpdates_Ideal :
    ∀ us (t : BIT) (a : Nat → Int), Ideal t.n t.bit a → (∀ u ∈ us, u.1 < t.n) →
      Ideal t.n (applyUpdates t us).bit
        (fun k => a k + ((us.filter fun u => u.1 + 1 = k).map Prod.snd).sum) := by
  intro us
  induction us with
  | nil =>
    intro t a hI _
    refine Ideal_congr (fun k _ _ => ?_) hI
    simp
  | cons u us ih =>
    intro t a hI hv
    have hI1 : Ideal t.n (update t u.1 u.2).bit
        (fun k => if k = u.1 + 1 then a k + u.2 else a k) := by
      show Ideal t.n (updateAux (t.n + 1) t.n u.2 t.bit (u.1 + 1)) _
      exact update_Ideal hI (by omega) (by have := hv u (List.mem_cons_self u us); omega) u.2
    have hv2 : ∀ w ∈ us, w.1 < (update t u.1 u.2).n :=
      fun w hw => hv w (List.mem_cons_of_mem u hw)
    have hnext := ih (update t u.1 u.2) _ hI1 hv2
    refine Ideal_congr (fun k _ _ => ?_) hnext
    by_cases hk : u.1 + 1 = k
    · rw [if_pos hk.symm]
      have hfc : ((u :: us).filter fun w => w.1 + 1 = k) =
          u :: (us.filter fun w => w.1 + 1 = k) := by
        simp [List.filter_cons, hk]
      rw [hfc, List.map_cons, List.sum_cons]
      ring
    · rw [if_neg (fun hh => hk hh.symm)]
      have hfc : ((u :: us).filter fun w => w.1 + 1 = k) =
          us.filter fun w => w.1 + 1 = k := by
        simp [List.filter_cons, hk]
      rw [hfc]

theorem ctor_filter_sum (arr : List Int) (k : Nat) (hk : 1 ≤ k) :
    ∀ len, ((((List.range len).map fun i => (i, arr.getD i 0)).filter
        fun u => u.1 + 1 = k).map Prod.snd).sum =
      if k ≤ len then arr.getD (k - 1) 0 else 0 := by
  intro len
  induction len with
  | zero =>
    rw [if_neg (by omega)]
    rfl
  | succ len ih =>
    rw [List.range_succ, List.map_append, List.filter_append, List.map_append,
      List.sum_append, ih]
    simp only [List.map_cons, List.map_nil]
    by_cases hlk : len + 1 = k
    · have h2 : ((([(len, arr.getD len 0)]).filter fun u => u.1 + 1 = k).map Prod.snd).sum =
          arr.getD len 0 := by
        simp [List.filter_cons, hlk]
      rw [h2, if_neg (by omega), if_pos (by omega), show k - 1 = len by omega]
      ring
    · have h2 : ((([(len, arr.getD len 0)]).filter fun u => u.1 + 1 = k).map Prod.snd).sum =
          0 := by
        simp [List.filter_cons, hlk]
      rw [h2, add_zero]
      by_cases hkl : k ≤ len
      · rw [if_pos hkl, if_pos (by omega)]
      · rw [if_neg hkl, if_neg (by omega)]

theorem mkBIT_n (arr : List Int) : (mkBIT arr).n = arr.length := by
  show (applyUpdates _ _).n = arr.length
  rw [applyUpdates_n]

theorem mkBIT_Ideal (arr : List Int) :
    Ideal arr.length (mkBIT arr).bit
      (fun k => if k ≤ arr.length then arr.getD (k - 1) 0 else 0) := by
  have h0 : Ideal arr.length (fun _ => (0 : Int)) (fun _ => (0 : Int)) := by
    intro i _ _
    simp
  have hv : ∀ u ∈ (List.range arr.length).map fun i => (i, arr.getD i 0),
      u.1 < ({ bit := fun _ => (0 : Int), n := arr.length } : BIT).n := by
    intro u hu
    rw [List.mem_map] at hu
    obtain ⟨i, hi, rfl⟩ := hu
    rw [List.mem_range] at hi
    exact hi
  have hA := applyUpdates_Ideal ((List.range arr.length).map fun i => (i, arr.getD i 0))
    { bit := fun _ => (0 : Int), n := arr.length } _ h0 hv
  refine Ideal_congr (fun k hk1 hk2 => ?_) hA
  rw [ctor_filter_sum arr k hk1 arr.length]
  ring

/-- After construction and any valid update list, `query(j)` is the prefix
sum of the current elements over `[0, j]`. -/
theorem query_prefix_curElem (arr : List Int) (us : List (Nat × Int))
    (hus : ∀ u ∈ us, u.1 < arr.length) :
    ∀ j, j < arr.length →
      query (applyUpdates (mkBIT arr) us) j = ∑ k ∈ Finset.range (j + 1), curElem arr us k := by
  have hus' : ∀ u ∈ us, u.1 < (mkBIT arr).n := by
    rw [mkBIT_n]
    exact hus
  have hI0 : Ideal (mkBIT arr).n (mkBIT arr).bit
      (fun k => if k ≤ arr.length then arr.getD (k - 1) 0 else 0) := by
    rw [mkBIT_n]
    exact mkBIT_Ideal arr
  have hI := applyUpdates_Ideal us (mkBIT arr) _ hI0 hus'
  rw [mkBIT_n] at hI
  have hcur : ∀ k, 1 ≤ k → k ≤ arr.length →
      ((if k ≤ arr.length then arr.getD (k - 1) 0 else 0) +
        ((us.filter fun u => u.1 + 1 = k).map Prod.snd).sum) = curElem arr us (k - 1) := by
    intro k h1 h2
    rw [if_pos h2]
    unfold curElem
    have hfc : (us.filter fun u => u.1 + 1 = k) = us.filter fun u => u.1 = k - 1 := by
      refine List.filter_congr (fun u hu => ?_)
      exact decide_eq_decide.2 (by omega)
    rw [hfc]
  intro j hj
  show queryAux (j + 2) (applyUpdates (mkBIT arr) us).bit (j + 1) = _
  rw [queryAux_prefixSum arr.length _ (j + 2) _ (j + 1) hI (by omega) (by omega)]
  have hshift : ∀ m, (∑ k ∈ Finset.Ioc 0 m,
      ((if k ≤ arr.length then arr.getD (k - 1) 0 else 0) +
        ((us.filter fun u => u.1 + 1 = k).map Prod.snd).sum)) =
      ∑ i ∈ Finset.range m,
        ((if i + 1 ≤ arr.length then arr.getD (i + 1 - 1) 0 else 0) +
          ((us.filter fun u => u.1 + 1 = (i + 1)).map Prod.snd).sum) := by
    intro m
    induction m with
    | zero => simp
    | succ m ih => rw [Finset.sum_Ioc_succ_top (by omega), ih, Finset.sum_range_succ]
  rw [hshift]
  refine Finset.sum_congr rfl (fun i hi => ?_)
  rw [Finset.mem_range] at hi
  have := hcur (i + 1) (by omega) (by omega)
  rw [this, show i + 1 - 1 = i by omega]

/-- Claim C8: for the `BinaryIndexedTree`, after any valid update sequence
from construction, `query(idx)` is the sum of the current elements over
`[0, idx]`; `rangeQuery(l, r)` equals `query(r) - query(l-1)` (0 in place
of `query(-1)` when `l = 0`), hence the sum of the current elements over
`[l, r]`. -/
theorem claim_C8 (arr : List Int) (us : List (Nat × Int)) (idx l r : Nat)
    (hus : ∀ u ∈ us, u.1 < arr.length) (hidx : idx < arr.length)
    (hlr : l ≤ r) (hr : r < arr.length) :
    query (applyUpdates (mkBIT arr) us) idx = (∑ j ∈ Finset.range (idx + 1), curElem arr us j) ∧
      rangeQuery (applyUpdates (mkBIT arr) us) l r =
        query (applyUpdates (mkBIT arr) us) r -
          (if 0 < l then query (applyUpdates (mkBIT arr) us) (l - 1) else 0) ∧
      rangeQuery (applyUpdates (mkBIT arr) us) l r = ∑ j ∈ Finset.Icc l r, curElem arr us j := by
  refine ⟨query_prefix_curElem arr us hus idx hidx, rfl, ?_⟩
  show query (applyUpdates (mkBIT arr) us) r -
    (if 0 < l then query (applyUpdates (mkBIT arr) us) (l - 1) else 0) = _
  by_cases hl0 : 0 < l
  · rw [if_pos hl0, query_prefix_curElem arr us hus r hr,
      query_prefix_curElem arr us hus (l - 1) (by omega), show l - 1 + 1 = l by omega]
    have hsplit : (∑ j ∈ Finset.range l, curElem arr us j) +
        (∑ j ∈ Finset.Icc l r, curElem arr us j) =
        ∑ j ∈ Finset.range (r + 1), curElem arr us j := by
      rw [Finset.range_eq_Ico, ← Nat.Ico_succ_right]
      exact Finset.sum_Ico_consecutive _ (by omega) (by omega)
    linarith [hsplit]
  · rw [if_neg hl0, query_prefix_curElem arr us hus r hr, sub_zero]
    have : l = 0 := by omega
    subst this
    refine Finset.sum_congr ?_ (fun j _ => rfl)
    ext j
    rw [Finset.mem_range, Finset.mem_Icc]
    omega

/-- Witness for C8: `[1, 2]` with one update `update(0, 3)`, then
`query(1)` and `rangeQuery(0, 1)`. -/
theorem claim_C8_witness :
    query (applyUpdates (mkBIT [1, 2]) [(0, 3)]) 1 =
      (∑ j ∈ Finset.range 2, curElem [1, 2] [(0, 3)] j) :=
  (claim_C8 [1, 2] [(0, 3)] 1 0 1 (by decide) (by norm_num) (by norm_num)
    (by norm_num)).1

end Fenwick
